import Mathlib

/-!
Verification development for the NEXUS scientific-calculator script
(src/script.js). The mutable module state and every operation reachable
from the claim list are embedded shallowly:

* JS strings become List Char (the String wrapper is used at the edges);
* JS doubles become JsNum, an idealized numeric domain of exact rationals
  together with the three special values Infinity, -Infinity and NaN.
  IEEE-754 rounding of finite intermediate results is abstracted away:
  finite arithmetic is exact. NaN/Infinity propagation, the NaN and
  finiteness guards, and every control-flow decision of the script are
  kept faithfully;
* the dynamic Function-constructor evaluation of the rewritten expression
  text is embedded as a tokenizer plus a recursive-descent evaluator with
  JS operator precedence over the arithmetic/factorial fragment that the
  rewriting pipeline produces. Transcendental Math.* calls and the **
  operator evaluate to an error in the model (no claim exercises them);
  the strict-mode rejection of leading-zero numeric literals is kept; a
  JS syntax error and a model parse error agree observably (both are
  caught by the callers of evaluateExpression);
* host library routines used by the script (toLocaleString, parseFloat,
  String(number), Math.round) are modelled on the idealized domain with
  their documented semantics.

Definitions are executable (fuel-based structural recursion) so that
every concrete claim instance evaluates inside the kernel.
-/

/-! ## Character classes used by script.js -/

/-- The four binary operator characters, as in isOperator (script.js:373). -/
def isOpChar (c : Char) : Bool :=
  c = '+' || c = '-' || c = '*' || c = '/'

/-- Whitespace as matched by the \s class of the sanitizing regex. -/
def isWsChar (c : Char) : Bool :=
  c = ' ' || c = '\t' || c = '\n' || c = '\r'

/-- Characters on which inputNum splits the expression into numeric
segments (the regex [+\-*/()] at script.js:63). -/
def isSegSplit (c : Char) : Bool :=
  isOpChar c || c = '(' || c = ')'

/-- Word characters of the regex class \w (used by the Math token
stripping step of the sanitizer). -/
def isWordChar (c : Char) : Bool :=
  c.isAlpha || c.isDigit || c = '_'

/-- Characters that can continue an identifier token of the rewritten
JS text (Math.log10 and the like contain letters, digits and dots). -/
def isIdentChar (c : Char) : Bool :=
  c.isAlpha || c.isDigit || c = '.' || c = '_'

/-- Characters accepted by the sanitizing character class of
evaluateExpression (script.js:321): digits, arithmetic and grouping
characters, whitespace, comma, and the letters occurring in the allowed
function and constant vocabulary. -/
def allowedChar (c : Char) : Bool :=
  c.isDigit || isWsChar c ||
  c = '+' || c = '-' || c = '*' || c = '/' || c = '(' || c = ')' ||
  c = '.' || c = ',' || c = '^' || c = '!' ||
  c = 'M' || c = 'a' || c = 't' || c = 'h' || c = 's' || c = 'i' ||
  c = 'n' || c = 'c' || c = 'o' || c = 'g' || c = 'l' || c = 'q' ||
  c = 'r' || c = 'b' || c = 'f' || c = 'e' || c = 'E' || c = 'P' || c = 'I'

/-! ## The idealized JS number domain -/

/-- A JS double, idealized: exact rational finite values plus the three
special values. -/
inductive JsNum where
  | fin (q : ℚ)
  | inf
  | negInf
  | nan
deriving DecidableEq

/-- Finiteness test, as JS isFinite. -/
def jsFinite : JsNum → Bool
  | .fin _ => true
  | _ => false

/-- JS unary minus. -/
def jsNeg : JsNum → JsNum
  | .fin q => .fin (-q)
  | .inf => .negInf
  | .negInf => .inf
  | .nan => .nan

/-- JS addition on the idealized domain. -/
def jsAdd : JsNum → JsNum → JsNum
  | .nan, _ => .nan
  | _, .nan => .nan
  | .fin a, .fin b => .fin (a + b)
  | .inf, .negInf => .nan
  | .negInf, .inf => .nan
  | .inf, _ => .inf
  | _, .inf => .inf
  | .negInf, _ => .negInf
  | _, .negInf => .negInf

/-- JS subtraction on the idealized domain. -/
def jsSub (a b : JsNum) : JsNum := jsAdd a (jsNeg b)

/-- JS multiplication on the idealized domain (Infinity times zero is
NaN; signs propagate). -/
def jsMul : JsNum → JsNum → JsNum
  | .nan, _ => .nan
  | _, .nan => .nan
  | .fin a, .fin b => .fin (a * b)
  | .inf, .inf => .inf
  | .inf, .negInf => .negInf
  | .negInf, .inf => .negInf
  | .negInf, .negInf => .inf
  | .inf, .fin b => if b = 0 then .nan else if 0 < b then .inf else .negInf
  | .fin a, .inf => if a = 0 then .nan else if 0 < a then .inf else .negInf
  | .negInf, .fin b => if b = 0 then .nan else if 0 < b then .negInf else .inf
  | .fin a, .negInf => if a = 0 then .nan else if 0 < a then .negInf else .inf

/-- JS division on the idealized domain (x/0 is signed Infinity, 0/0 is
NaN, finite/Infinity is 0, Infinity/Infinity is NaN; the signed-zero
subtleties of IEEE are outside the idealization). -/
def jsDiv : JsNum → JsNum → JsNum
  | .nan, _ => .nan
  | _, .nan => .nan
  | .fin a, .fin b =>
      if b = 0 then (if a = 0 then .nan else if 0 < a then .inf else .negInf)
      else .fin (a / b)
  | .fin _, .inf => .fin 0
  | .fin _, .negInf => .fin 0
  | .inf, .fin b => if b < 0 then .negInf else .inf
  | .negInf, .fin b => if b < 0 then .inf else .negInf
  | .inf, .inf => .nan
  | .inf, .negInf => .nan
  | .negInf, .inf => .nan
  | .negInf, .negInf => .nan

/-- Math.round on a finite value: floor of x + 1/2 (rounds half toward
positive infinity, as in JS). -/
def jsRound (q : ℚ) : ℤ := ⌊q + 1 / 2⌋

/-! ## Digit strings -/

/-- Numeric value of a run of decimal digit characters (the way both the
tokenizer of the evaluator and the factorial rewrite read a literal). -/
def digitsVal (l : List Char) : ℕ :=
  l.foldl (fun a c => 10 * a + (c.toNat - 48)) 0

/-- Decimal digit characters of a natural number, most significant
first; fuel-based so that it reduces inside the kernel. -/
def natDigitsAux : ℕ → ℕ → List Char → List Char
  | 0, _, acc => acc
  | _ + 1, 0, acc => acc
  | f + 1, n, acc => natDigitsAux f (n / 10) (Nat.digitChar (n % 10) :: acc)

/-- Decimal digit characters of a natural number (zero renders as the
single digit 0). -/
def natDigits (n : ℕ) : List Char :=
  if n = 0 then ['0'] else natDigitsAux (n + 1) n []

/-! ## Locale formatting (model of Number.prototype.toLocaleString) -/

/-- Insert a comma after every three characters of a reversed digit
list (grouping from the least significant end). Fuel-based. -/
def groupRevAux : ℕ → List Char → List Char
  | 0, l => l
  | f + 1, l =>
    if l.length ≤ 3 then l
    else l.take 3 ++ ',' :: groupRevAux f (l.drop 3)

/-- Thousands grouping of a digit list given most significant first,
as rendered by toLocaleString with the en-US locale. -/
def groupDigits (ds : List Char) : List Char :=
  (groupRevAux ds.length ds.reverse).reverse

/-- Character list of toLocaleString applied to an integer value. -/
def localeIntChars (n : ℤ) : List Char :=
  (if n < 0 then ['-'] else []) ++ groupDigits (natDigits n.natAbs)

/-- toLocaleString of an integer value, en-US locale. -/
def localeIntStr (n : ℤ) : String := String.mk (localeIntChars n)

/-- Decimal expansion digits of a proper fraction num/den by long
division, stopping when the remainder vanishes; fuel-bounded (the model
caps a non-terminating expansion at the fuel, mirroring the finite
precision of the double that the script would hold). -/
def fracDigitsAux : ℕ → ℕ → ℕ → List Char
  | 0, _, _ => []
  | _ + 1, 0, _ => []
  | f + 1, num, den =>
    Nat.digitChar (num * 10 / den) :: fracDigitsAux f (num * 10 % den) den

/-- Decimal digit characters of the fractional part of a nonnegative
rational. -/
def fracDigits (q : ℚ) : List Char :=
  fracDigitsAux 20 (q.num.toNat % q.den) q.den

/-- Character list of String(x) for a nonnegative finite JS number:
integer digits, then a dot and the fractional expansion when the value
is not an integer. -/
def decChars (q : ℚ) : List Char :=
  natDigits (⌊q⌋.toNat) ++
    (if q.den = 1 then [] else '.' :: fracDigits q)

/-- Model of the JS number-to-string conversion String(x) used when the
script seeds the expression from lastAnswer. Finite values print in
plain decimal notation (the exponential forms JS would pick outside
[1e-6, 1e21) are idealized away; only the character-class facts and
small concrete values matter to the claims). -/
def jsNumToString : JsNum → String
  | .nan => "NaN"
  | .inf => "Infinity"
  | .negInf => "-Infinity"
  | .fin q => String.mk ((if q < 0 then ['-'] else []) ++ decChars |q|)

/-! ## Model of parseFloat -/

/-- Signed decimal exponent after an e or E, if syntactically valid;
returns the exponent value and the remaining characters, or none when
the exponent part is malformed (parseFloat then ignores it). -/
def parseExpPart (l : List Char) : Option ℤ :=
  match l with
  | 'e' :: rest => parseExpSigned rest
  | 'E' :: rest => parseExpSigned rest
  | _ => none
where
  parseExpSigned (r : List Char) : Option ℤ :=
    match r with
    | '+' :: r2 => if (r2.takeWhile Char.isDigit) = [] then none
        else some (digitsVal (r2.takeWhile Char.isDigit))
    | '-' :: r2 => if (r2.takeWhile Char.isDigit) = [] then none
        else some (-(digitsVal (r2.takeWhile Char.isDigit) : ℤ))
    | _ => if (r.takeWhile Char.isDigit) = [] then none
        else some (digitsVal (r.takeWhile Char.isDigit))

/-- Model of JS parseFloat restricted to finite decimal literals:
leading whitespace, an optional sign, a digit run with an optional
fractional part (at least one digit overall), and an optional exponent;
trailing garbage is ignored. Strings with no parsable number prefix
give none (NaN). The Infinity literals parseFloat would accept are not
produced by any formatter of this script and are left out of the
model. -/
def jsParseFloat (s : List Char) : Option ℚ :=
  let l := s.dropWhile isWsChar
  let sign : ℚ := if l.head? = some '-' then -1 else 1
  let l1 := if l.head? = some '-' ∨ l.head? = some '+' then l.drop 1 else l
  let ip := l1.takeWhile Char.isDigit
  let l2 := l1.dropWhile Char.isDigit
  let fp := if l2.head? = some '.' then (l2.drop 1).takeWhile Char.isDigit else []
  let l3 := if l2.head? = some '.' then (l2.drop 1).dropWhile Char.isDigit else l2
  if ip = [] ∧ fp = [] then none
  else
    let mant : ℚ := (digitsVal ip : ℚ) + (digitsVal fp : ℚ) / 10 ^ fp.length
    let e : ℤ := (parseExpPart l3).getD 0
    some (sign * mant * 10 ^ e)

/-- Length of the decimal representation of a natural number. -/
def natLen (n : ℕ) : ℕ := (natDigits n).length

/-- Search for the floor of log10 of a positive rational below one:
smallest k with q * 10^k at least 1, negated. Fuel-bounded. -/
def qFloorLog10Aux : ℕ → ℚ → ℕ → ℤ
  | 0, _, k => -(k : ℤ)
  | f + 1, q, k => if 1 ≤ q * 10 ^ k then -(k : ℤ) else qFloorLog10Aux f q (k + 1)

/-- Floor of log10 of a positive rational (0 for nonpositive input,
which no caller produces). -/
def qFloorLog10 (q : ℚ) : ℤ :=
  if 1 ≤ q then (natLen ⌊q⌋.toNat : ℤ) - 1
  else if 0 < q then qFloorLog10Aux (natLen q.den + 1) q 1
  else 0

/-- Rounding to an integer, half away from zero (the default rounding
of the Intl number formatter backing toLocaleString). -/
def roundHalfAway (q : ℚ) : ℤ :=
  if q < 0 then -⌊-q + 1 / 2⌋ else ⌊q + 1 / 2⌋

/-- Model of Number.prototype.toExponential(6): mantissa with one
integer digit and six fractional digits (ties round to the larger
mantissa), then an explicitly signed decimal exponent. -/
def toExponential6 (q : ℚ) : String :=
  if q = 0 then "0.000000e+0"
  else
    let a := |q|
    let k0 := qFloorLog10 a
    let n0 := ⌊a * 10 ^ (6 - k0) + 1 / 2⌋
    let k := if 10 ^ 7 ≤ n0 then k0 + 1 else k0
    let n := if 10 ^ 7 ≤ n0 then ⌊a * 10 ^ (6 - k0 - 1) + 1 / 2⌋ else n0
    let ds := natDigits n.toNat
    String.mk ((if q < 0 then ['-'] else []) ++
      ds.take 1 ++ '.' :: ds.drop 1 ++
      'e' :: (if k < 0 then ['-'] else ['+']) ++ natDigits k.natAbs)

/-- Rounding to p significant decimal digits (the value produced by
parseFloat of toPrecision(p)). -/
def roundSig (p : ℕ) (q : ℚ) : ℚ :=
  if q = 0 then 0
  else
    let k := qFloorLog10 |q|
    let s : ℚ := 10 ^ ((p : ℤ) - 1 - k)
    (roundHalfAway (q * s) : ℚ) / s

/-- Model of toLocaleString en-US with maximumFractionDigits d: round
to d fractional digits, group the integer part, and print the
fractional digits with trailing zeros removed. -/
def localeMaxFrac (d : ℕ) (q : ℚ) : String :=
  let n := (roundHalfAway (|q| * 10 ^ d)).toNat
  let ip := n / 10 ^ d
  let fr := n % 10 ^ d
  let frDigits :=
    (List.replicate (d - natLen fr) '0' ++ natDigits fr).reverse.dropWhile
      (fun c => c = '0') |>.reverse
  String.mk ((if q < 0 then ['-'] else []) ++ groupDigits (natDigits ip) ++
    (if fr = 0 then [] else '.' :: frDigits))

/-- Model of formatResult (script.js:340): integers below 1e15 in
magnitude render with locale grouping; very large or very small
magnitudes render in exponential notation with six fractional digits;
otherwise the value is rounded to 12 significant digits and rendered
with locale grouping and at most ten fractional digits. The callers
only pass finite values (calculate and liveEvaluate guard NaN and
Infinity first), so the model takes the rational directly. -/
def formatResult (q : ℚ) : String :=
  if q.den = 1 ∧ |q| < 10 ^ 15 then localeIntStr q.num
  else if 10 ^ 15 ≤ |q| ∨ (|q| < 1 / 10000 ∧ q ≠ 0) then toExponential6 q
  else localeMaxFrac 10 (roundSig 12 q)

/-- Character list of toLocaleString en-US with minimumFractionDigits
and maximumFractionDigits both 2 (the currency formatter): grouped
integer part, a dot, and exactly two fractional digits. -/
def locale2Chars (q : ℚ) : List Char :=
  let n := (roundHalfAway (|q| * 100)).toNat
  (if q < 0 then ['-'] else []) ++ groupDigits (natDigits (n / 100)) ++
    '.' :: [Nat.digitChar (n % 100 / 10), Nat.digitChar (n % 10)]

/-- toLocaleString en-US with exactly two fractional digits. -/
def locale2 (q : ℚ) : String := String.mk (locale2Chars q)

/-! ## The textual rewriting pipeline of evaluateExpression -/

/-- Global replacement of a fixed pattern, as String.prototype.replace
with a global literal regex: scan left to right, replace each
non-overlapping occurrence, continue after the replaced text.
Fuel-based; the fuel passed by replaceAll always suffices because every
step consumes at least one input character. -/
def replaceAllAux (p r : List Char) : ℕ → List Char → List Char
  | _, [] => []
  | 0, l => l
  | f + 1, c :: cs =>
    if p.isPrefixOf (c :: cs) then r ++ replaceAllAux p r f ((c :: cs).drop p.length)
    else c :: replaceAllAux p r f cs

/-- Replace every occurrence of pattern p by r. -/
def replaceAll (p r l : List Char) : List Char := replaceAllAux p r l.length l

/-- Replacement text for the bare Euler constant. -/
def mathERep : List Char := "(Math.E)".data

/-- Global replacement of a bare e: the regex at script.js:298 matches
an e neither preceded nor followed by an ASCII letter. The lookbehind
inspects the original previous character, which the scan threads
through. -/
def replaceEAux : Option Char → ℕ → List Char → List Char
  | _, _, [] => []
  | _, 0, l => l
  | prev, f + 1, c :: cs =>
    if c = 'e' ∧ ¬(∃ p, prev = some p ∧ p.isAlpha) ∧
        ¬(∃ n, cs.head? = some n ∧ n.isAlpha) then
      mathERep ++ replaceEAux (some c) f cs
    else c :: replaceEAux (some c) f cs

/-- Replace bare occurrences of e by the Euler constant text. -/
def replaceE (l : List Char) : List Char := replaceEAux none l.length l

/-- The literal Math dot prefix matched by the sanitizer regex. -/
def mathDotPat : List Char := "Math.".data

/-- Deletion of Math.\w+ tokens, the first stripping step of the
sanitizer (script.js:321): a Math dot prefix followed by at least one
word character is removed together with that word-character run. -/
def stripMathAux : ℕ → List Char → List Char
  | _, [] => []
  | 0, l => l
  | f + 1, c :: cs =>
    if mathDotPat.isPrefixOf (c :: cs) ∧
        (∃ n, ((c :: cs).drop 5).head? = some n ∧ isWordChar n) then
      stripMathAux f (((c :: cs).drop 5).dropWhile isWordChar)
    else c :: stripMathAux f cs

/-- Delete every Math.\w+ token. -/
def stripMath (l : List Char) : List Char := stripMathAux l.length l

/-- Replacement text emitted by the factorial rewrite. -/
def factorialCallPat : List Char := "factorial(".data

/-- The factorial rewrite (script.js:309): every maximal digit run
immediately followed by an exclamation mark becomes a call
factorial(run). A digit run not followed by the mark is left in place
(no shorter suffix of the run can match, since any match must end at
the same non-mark character). -/
def rewriteFactAux : ℕ → List Char → List Char
  | _, [] => []
  | 0, l => l
  | f + 1, c :: cs =>
    if c.isDigit then
      let run := (c :: cs).takeWhile Char.isDigit
      let rest := (c :: cs).dropWhile Char.isDigit
      match rest with
      | '!' :: r2 => factorialCallPat ++ run ++ ')' :: rewriteFactAux f r2
      | _ => run ++ rewriteFactAux f rest
    else c :: rewriteFactAux f cs

/-- Rewrite postfix factorials into factorial calls. -/
def rewriteFact (l : List Char) : List Char := rewriteFactAux l.length l

/-! ## Tokenizer and evaluator for the rewritten text -/

/-- Error message constants of the model. -/
def errFuel : String := "fuel exhausted"

/-- Error for a character no token can start with. -/
def errBadChar : String := "unexpected character"

/-- Error for constructs outside the modelled arithmetic fragment
(Math.* calls and the ** operator); JS would evaluate these, but every
caller treats any failure identically and no claim exercises them. -/
def errModel : String := "outside the modelled fragment"

/-- Error for a missing closing parenthesis. -/
def errParen : String := "expected closing parenthesis"

/-- Error for a malformed expression (JS SyntaxError in the Function
constructor; observably identical for the callers, which catch). -/
def errSyntax : String := "syntax error"

/-- The InvalidExpression error thrown by the sanitizer. -/
def errInvalidExpr : String := "Invalid expression"

/-- Tokens of the rewritten expression text. -/
inductive Tok where
  | num (q : ℚ)
  | ident (s : List Char)
  | lp
  | rp
  | plus
  | minus
  | star
  | slash
  | starStar
  | comma
deriving DecidableEq

/-- One tokenization step on a nonempty input: the consumed token (or
none for skipped whitespace) and the remaining characters. Decimal
literals may carry an optional fractional part (also in leading-dot
form); a zero followed by another digit is a SyntaxError, because the
Function body runs under "use strict" (script.js:336), which forbids
legacy-octal and leading-zero decimal literals; identifiers are
letters, digits, dots and underscores starting with a letter.
Exponent-form literals cannot occur, because the bare-e rewrite has
already consumed every e. -/
def tokHead (c : Char) (cs : List Char) : Except String (Option Tok × List Char) :=
  if isWsChar c then .ok (none, cs)
  else if c.isDigit then
    let ip := (c :: cs).takeWhile Char.isDigit
    if c = '0' ∧ 2 ≤ ip.length then .error errSyntax
    else
      match (c :: cs).dropWhile Char.isDigit with
      | '.' :: r2 =>
        let fp := r2.takeWhile Char.isDigit
        .ok (some (Tok.num ((digitsVal ip : ℚ) + (digitsVal fp : ℚ) / 10 ^ fp.length)),
          r2.dropWhile Char.isDigit)
      | r1 => .ok (some (Tok.num (digitsVal ip : ℚ)), r1)
  else if c = '.' ∧ (∃ d, cs.head? = some d ∧ d.isDigit) then
    let fp := cs.takeWhile Char.isDigit
    .ok (some (Tok.num ((digitsVal fp : ℚ) / 10 ^ fp.length)),
      cs.dropWhile Char.isDigit)
  else if c.isAlpha then
    .ok (some (Tok.ident ((c :: cs).takeWhile isIdentChar)),
      (c :: cs).dropWhile isIdentChar)
  else if c = '(' then .ok (some Tok.lp, cs)
  else if c = ')' then .ok (some Tok.rp, cs)
  else if c = '+' then .ok (some Tok.plus, cs)
  else if c = '-' then .ok (some Tok.minus, cs)
  else if c = '*' then
    match cs with
    | '*' :: cs2 => .ok (some Tok.starStar, cs2)
    | _ => .ok (some Tok.star, cs)
  else if c = '/' then .ok (some Tok.slash, cs)
  else if c = ',' then .ok (some Tok.comma, cs)
  else .error errBadChar

/-- Tokenizer for the rewritten text. Fuel-based; each step consumes at
least one character, so the initial fuel of one per character
suffices. -/
def tokenizeAux : ℕ → List Char → Except String (List Tok)
  | _, [] => .ok []
  | 0, _ :: _ => .error errFuel
  | f + 1, c :: cs =>
    match tokHead c cs with
    | .error e => .error e
    | .ok (none, r) => tokenizeAux f r
    | .ok (some t, r) => (tokenizeAux f r).map (fun ts => t :: ts)

/-- The name of the factorial helper passed to the Function constructor
(also the word deleted by the second stripping step of the sanitizer). -/
def factorialName : List Char := "factorial".data

/-- Model of the factorial helper (script.js:326): round the argument,
fail on negatives with NaN, return 1 for 0 and 1, report Infinity above
170, otherwise multiply 2..n iteratively. The non-finite argument cases
follow the JS comparison semantics of the same code: NaN compares false
everywhere and skips the loop (result 1), Infinity falls through to the
170 test, -Infinity is negative. -/
def evalFactorial : JsNum → JsNum
  | .fin q =>
    let m := jsRound q
    if m < 0 then .nan
    else if m = 0 ∨ m = 1 then .fin 1
    else if 170 < m then .inf
    else .fin ((List.range' 2 (m.toNat - 1)).foldl (fun (a : ℚ) (i : ℕ) => a * (i : ℚ)) (1 : ℚ))
  | .inf => .inf
  | .negInf => .nan
  | .nan => .fin 1

/-- Phases of the recursive-descent evaluator: additive level, its
left-folding continuation, multiplicative level, its continuation,
unary level, primary level. -/
inductive PPhase where
  | pAdd
  | pAddLoop (acc : JsNum)
  | pMul
  | pMulLoop (acc : JsNum)
  | pUnary
  | pPrim

/-- Recursive-descent evaluation of the token list with JS precedence:
additive below multiplicative below unary below primary, parentheses
and factorial calls at the primary level. Fuel-based single structural
recursion so that concrete runs reduce in the kernel. -/
def parseGo : ℕ → PPhase → List Tok → Except String (JsNum × List Tok)
  | 0, _, _ => .error errFuel
  | f + 1, ph, ts =>
    match ph with
    | .pAdd => do
        let (v, r) ← parseGo f .pMul ts
        parseGo f (.pAddLoop v) r
    | .pAddLoop v =>
        match ts with
        | .plus :: r => do
            let (w, r2) ← parseGo f .pMul r
            parseGo f (.pAddLoop (jsAdd v w)) r2
        | .minus :: r => do
            let (w, r2) ← parseGo f .pMul r
            parseGo f (.pAddLoop (jsSub v w)) r2
        | _ => .ok (v, ts)
    | .pMul => do
        let (v, r) ← parseGo f .pUnary ts
        parseGo f (.pMulLoop v) r
    | .pMulLoop v =>
        match ts with
        | .star :: r => do
            let (w, r2) ← parseGo f .pUnary r
            parseGo f (.pMulLoop (jsMul v w)) r2
        | .slash :: r => do
            let (w, r2) ← parseGo f .pUnary r
            parseGo f (.pMulLoop (jsDiv v w)) r2
        | .starStar :: _ => .error errModel
        | _ => .ok (v, ts)
    | .pUnary =>
        match ts with
        | .minus :: r => do
            let (v, r2) ← parseGo f .pUnary r
            .ok (jsNeg v, r2)
        | .plus :: r => parseGo f .pUnary r
        | _ => parseGo f .pPrim ts
    | .pPrim =>
        match ts with
        | .num q :: r => .ok (.fin q, r)
        | .lp :: r => do
            let (v, r2) ← parseGo f .pAdd r
            match r2 with
            | .rp :: r3 => .ok (v, r3)
            | _ => .error errParen
        | .ident name :: r =>
            if name = factorialName then
              match r with
              | .lp :: r2 => do
                  let (v, r3) ← parseGo f .pAdd r2
                  match r3 with
                  | .rp :: r4 => .ok (evalFactorial v, r4)
                  | _ => .error errParen
              | _ => .error errModel
            else .error errModel
        | _ => .error errSyntax

/-- Evaluate the rewritten text: tokenize, then run the descent with
generous fuel and require that every token is consumed. -/
def evalJs (l : List Char) : Except String JsNum := do
  let ts ← tokenizeAux l.length l
  let (v, r) ← parseGo (4 * (ts.length + 1)) .pAdd ts
  if r = [] then pure v else .error errSyntax

/-! ## evaluateExpression (script.js:294) -/

/-- Pattern: the pi constant character. -/
def piPat : List Char := "π".data

/-- Replacement for pi. -/
def piRep : List Char := "(Math.PI)".data

/-- Pattern for the sine call prefix. -/
def sinPat : List Char := "sin(".data

/-- Replacement for the sine call prefix. -/
def sinRep : List Char := "Math.sin(".data

/-- Pattern for the cosine call prefix. -/
def cosPat : List Char := "cos(".data

/-- Replacement for the cosine call prefix. -/
def cosRep : List Char := "Math.cos(".data

/-- Pattern for the tangent call prefix. -/
def tanPat : List Char := "tan(".data

/-- Replacement for the tangent call prefix. -/
def tanRep : List Char := "Math.tan(".data

/-- Pattern for the base-10 logarithm call prefix. -/
def logPat : List Char := "log(".data

/-- Replacement for the base-10 logarithm call prefix. -/
def logRep : List Char := "Math.log10(".data

/-- Pattern for the natural logarithm call prefix. -/
def lnPat : List Char := "ln(".data

/-- Replacement for the natural logarithm call prefix. -/
def lnRep : List Char := "Math.log(".data

/-- Pattern for the square-root call prefix. -/
def sqrtPat : List Char := "sqrt(".data

/-- Replacement for the square-root call prefix. -/
def sqrtRep : List Char := "Math.sqrt(".data

/-- Pattern for the absolute-value call prefix. -/
def absPat : List Char := "abs(".data

/-- Replacement for the absolute-value call prefix. -/
def absRep : List Char := "Math.abs(".data

/-- Pattern for the caret operator. -/
def caretPat : List Char := "^".data

/-- Replacement for the caret operator. -/
def caretRep : List Char := "**".data

/-- Model of evaluateExpression (script.js:294): the replacement chain
in source order, the factorial rewrite, closing of unbalanced
parentheses, the sanitizing character test on the text with Math.\w+
tokens and the factorial word stripped, and finally the arithmetic
evaluation of the rewritten text. -/
def evaluateExpression (expr : List Char) : Except String JsNum :=
  let t := replaceAll piPat piRep expr
  let t := replaceE t
  let t := replaceAll sinPat sinRep t
  let t := replaceAll cosPat cosRep t
  let t := replaceAll tanPat tanRep t
  let t := replaceAll logPat logRep t
  let t := replaceAll lnPat lnRep t
  let t := replaceAll sqrtPat sqrtRep t
  let t := replaceAll absPat absRep t
  let t := replaceAll caretPat caretRep t
  let t := rewriteFact t
  let t := t ++ List.replicate (t.count '(' - t.count ')') ')'
  let chk := replaceAll factorialName [] (stripMath t)
  if chk.any (fun c => ! allowedChar c) then .error errInvalidExpr
  else evalJs t

/-! ## Calculator state and operations -/

/-- One committed calculation (script.js:394). -/
structure HistoryEntry where
  expr : List Char
  result : String
  time : String
deriving DecidableEq

/-- The mutable module state of the calculator: expression, displayed
result text, lastAnswer, history, and whether the result display is in
its error styling. The DOM projections that carry no state of their
own (the formatted expression line, panel visibility) are omitted. -/
structure CalcState where
  expression : List Char
  currentResult : String
  lastAnswer : Option JsNum
  history : List HistoryEntry
  errorFlag : Bool
deriving DecidableEq

/-- The initial module state (script.js:6). -/
def initState : CalcState :=
  { expression := []
    currentResult := "0"
    lastAnswer := none
    history := []
    errorFlag := false }

/-- Last character of the expression, if any (slice(-1) in the script;
the empty slice is not an operator). -/
def lastCharIsOp (e : List Char) : Bool :=
  match e.getLast? with
  | some c => isOpChar c
  | none => false

/-- Model of liveEvaluate (script.js:263): empty expression resets the
preview to 0; otherwise unmatched parentheses are closed, a trailing
binary operator suppresses evaluation, and a finite non-NaN result
updates the preview while every failure leaves the display untouched. -/
def liveEvaluate (s : CalcState) : CalcState :=
  if s.expression = [] then
    { s with currentResult := "0", errorFlag := false }
  else
    let ev := s.expression ++
      List.replicate (s.expression.count '(' - s.expression.count ')') ')'
    if lastCharIsOp ev then s
    else
      match evaluateExpression ev with
      | .ok (.fin q) =>
          { s with currentResult := formatResult q, errorFlag := false }
      | .ok _ => s
      | .error _ => s

/-- Model of toggleSign (script.js:142): negate lastAnswer into a fresh
expression when the expression is empty and an answer exists, otherwise
strip or prepend a leading minus; always followed by the live
evaluation. -/
def toggleSign (s : CalcState) : CalcState :=
  liveEvaluate <|
    if s.expression = [] ∧ s.lastAnswer.isSome then
      { s with
        expression := (jsNumToString (jsNeg (s.lastAnswer.getD .nan))).data
        lastAnswer := none }
    else if s.expression.head? = some '-' then
      { s with expression := s.expression.tail }
    else if s.expression ≠ [] then
      { s with expression := '-' :: s.expression }
    else s

/-- Model of inputNum (script.js:55): the ± token redirects to
toggleSign; a dot is rejected when the current numeric segment already
contains one; a pending lastAnswer with no trailing operator starts a
fresh expression; then the token is appended and the live evaluation
runs. -/
def inputNum (c : Char) (s : CalcState) : CalcState :=
  if c = '±' then toggleSign s
  else if c = '.' ∧
      '.' ∈ (s.expression.reverse.takeWhile (fun d => ¬ isSegSplit d)) then s
  else
    let s :=
      if s.lastAnswer.isSome ∧ ¬ lastCharIsOp s.expression then
        { s with expression := [], lastAnswer := none }
      else s
    liveEvaluate { s with expression := s.expression ++ [c] }

/-- Model of inputOp (script.js:79): an empty expression with a pending
lastAnswer is seeded from it; a trailing operator is dropped; a leading
operator other than minus is rejected (after those mutations); else
the operator is appended and lastAnswer cleared. inputOp does not run
the live evaluation. -/
def inputOp (op : Char) (s : CalcState) : CalcState :=
  let e :=
    if s.expression = [] ∧ s.lastAnswer.isSome then
      (jsNumToString (s.lastAnswer.getD .nan)).data
    else s.expression
  let e := if e ≠ [] ∧ lastCharIsOp e then e.dropLast else e
  if e = [] ∧ op ≠ '-' then { s with expression := e }
  else { s with expression := e ++ [op], lastAnswer := none }

/-- Model of inputParenthesis (script.js:98): open after nothing, an
open parenthesis or an operator; close while more are open than
closed; otherwise open a new group behind an implicit multiplication. -/
def inputParenthesis (s : CalcState) : CalcState :=
  let e := s.expression
  liveEvaluate <|
    if e = [] ∨ e.getLast? = some '(' ∨ lastCharIsOp e then
      { s with expression := e ++ ['('] }
    else if e.count ')' < e.count '(' then
      { s with expression := e ++ [')'] }
    else
      { s with expression := e ++ ['*', '('] }

/-- The function-call prefixes recognized by the backspace regex, in
the order of its alternation. -/
def funcPrefixes : List (List Char) :=
  ["sin(".data, "cos(".data, "tan(".data, "log(".data, "ln(".data,
   "sqrt(".data, "abs(".data]

/-- Suffix test via reversal. -/
def isSfx (p l : List Char) : Bool := p.reverse.isPrefixOf l.reverse

/-- Length of the function-name match of the backspace regex at the end
of the expression, if any. At most one alternative can match, because
no alternative (with its parenthesis) is a suffix of another. -/
def funcTailLen (e : List Char) : Option ℕ :=
  if isSfx ("sin(").data e then some 3
  else if isSfx ("cos(").data e then some 3
  else if isSfx ("tan(").data e then some 3
  else if isSfx ("log(").data e then some 3
  else if isSfx ("ln(").data e then some 2
  else if isSfx ("sqrt(").data e then some 4
  else if isSfx ("abs(").data e then some 3
  else none

/-- The expression after one backspace (script.js:119): a whole
function prefix is removed when one ends the expression, otherwise the
last character. -/
def backspaceExpr (e : List Char) : List Char :=
  match funcTailLen e with
  | some k => e.take (e.length - (k + 1))
  | none => e.dropLast

/-- Model of backspace (script.js:119): an empty expression returns at
once; otherwise the tail is removed and the live evaluation runs. -/
def backspace (s : CalcState) : CalcState :=
  if s.expression = [] then s
  else liveEvaluate { s with expression := backspaceExpr s.expression }

/-- Model of clearAll (script.js:134). -/
def clearAll (s : CalcState) : CalcState :=
  { s with
    expression := []
    currentResult := "0"
    lastAnswer := none
    errorFlag := false }

/-- The scientific function buttons handled by sciFunc. -/
inductive SciFn where
  | sin
  | cos
  | tan
  | log
  | ln
  | sqrt
  | abs
  | pow
  | pi
  | euler
  | factorial
  | inv
deriving DecidableEq

/-- Expression transformation of the sciFunc switch (script.js:166),
applied after the seeding step: call prefixes append name and
parenthesis; pow wraps the whole expression and appends the square;
the constants insert an implicit multiplication unless the previous
character is an operator or an open parenthesis; factorial appends the
postfix mark to a nonempty expression; inv wraps the whole expression
as a reciprocal. -/
def sciFuncExpr : SciFn → List Char → List Char
  | .sin, e => e ++ ("sin(").data
  | .cos, e => e ++ ("cos(").data
  | .tan, e => e ++ ("tan(").data
  | .log, e => e ++ ("log(").data
  | .ln, e => e ++ ("ln(").data
  | .sqrt, e => e ++ ("sqrt(").data
  | .abs, e => e ++ ("abs(").data
  | .pow, e => if e ≠ [] then '(' :: e ++ (")^2").data else e
  | .pi, e =>
    if e ≠ [] ∧ ¬ lastCharIsOp e ∧ e.getLast? ≠ some '(' then e ++ ['*', 'π']
    else e ++ ['π']
  | .euler, e =>
    if e ≠ [] ∧ ¬ lastCharIsOp e ∧ e.getLast? ≠ some '(' then e ++ ['*', 'e']
    else e ++ ['e']
  | .factorial, e => if e ≠ [] then e ++ ['!'] else e
  | .inv, e => if e ≠ [] then ("1/(").data ++ e ++ [')'] else e

/-- Model of sciFunc (script.js:159): a pending lastAnswer seeds an
empty expression (and is cleared), the switch transforms the
expression, and the live evaluation runs. -/
def sciFunc (fn : SciFn) (s : CalcState) : CalcState :=
  let s :=
    if s.lastAnswer.isSome ∧ s.expression = [] then
      { s with
        expression := (jsNumToString (s.lastAnswer.getD .nan)).data
        lastAnswer := none }
    else s
  liveEvaluate { s with expression := sciFuncExpr fn s.expression }

/-- Model of addHistory (script.js:387) at the ledger level: prepend
the new entry and drop the tail entry once the length exceeds 50. The
wall-clock timestamp is an input of the step. -/
def addHistoryL (en : HistoryEntry) (h : List HistoryEntry) : List HistoryEntry :=
  let h := en :: h
  if 50 < h.length then h.dropLast else h

/-- Error display (script.js:362): message shown with error styling,
expression and lastAnswer cleared. -/
def showError (msg : String) (s : CalcState) : CalcState :=
  { s with
    currentResult := msg
    errorFlag := true
    expression := []
    lastAnswer := none }

/-- The Error display message. -/
def errorMsg : String := "Error"

/-- The Infinity display message. -/
def infinityMsg : String := "Infinity"

/-- Model of calculate (script.js:226): nothing happens on an empty
expression; an evaluation failure or NaN shows Error, a non-finite
value shows Infinity, and a finite result is formatted, recorded in
history with the timestamp input, stored as lastAnswer, and displayed
while the expression resets. -/
def calculate (t : String) (s : CalcState) : CalcState :=
  if s.expression = [] then s
  else
    match evaluateExpression s.expression with
    | .error _ => showError errorMsg s
    | .ok .nan => showError errorMsg s
    | .ok .inf => showError infinityMsg s
    | .ok .negInf => showError infinityMsg s
    | .ok (.fin q) =>
      let formatted := formatResult q
      { s with
        history := addHistoryL ⟨s.expression, formatted, t⟩ s.history
        lastAnswer := some (.fin q)
        expression := []
        currentResult := formatted
        errorFlag := false }

/-- Model of recallHistory (script.js:422): a missing index is a no-op;
otherwise the expression clears and, when the stored result text (with
the grouping commas removed) parses back to a number, it becomes
lastAnswer and the displayed result. -/
def recallHistory (i : ℕ) (s : CalcState) : CalcState :=
  match s.history.get? i with
  | none => s
  | some item =>
    let s := { s with expression := [] }
    match jsParseFloat (item.result.data.filter (fun c => c ≠ ',')) with
    | some q =>
      { s with
        lastAnswer := some (.fin q)
        currentResult := item.result
        errorFlag := false }
    | none => s

/-- Model of clearHistory (script.js:402). -/
def clearHistory (s : CalcState) : CalcState := { s with history := [] }

/-! ## The event alphabet and reachability -/

/-- The discrete calculator events: the digit/dot pad, the operator
keys, the smart parenthesis, backspace, sign toggle, the scientific
function buttons, clear, equals (with the wall-clock timestamp its
handler reads), history recall and history clear. -/
inductive Act where
  | num (c : Char)
  | op (c : Char)
  | paren
  | back
  | sign
  | fn (f : SciFn)
  | clear
  | commit (t : String)
  | histRecall (i : ℕ)
  | hclear

/-- The state transition of one event. -/
def stepAct : Act → CalcState → CalcState
  | .num c => inputNum c
  | .op c => inputOp c
  | .paren => inputParenthesis
  | .back => backspace
  | .sign => toggleSign
  | .fn f => sciFunc f
  | .clear => clearAll
  | .commit t => calculate t
  | .histRecall i => recallHistory i
  | .hclear => clearHistory

/-- The events of the expression-builder claim: appendDigitOrDot (digit
or dot tokens), appendOperator (the four binary operators),
appendParenthesis, backspace, toggleSign, applyFunction, clearAll and
commit. -/
def builderAct : Act → Prop
  | .num c => c.isDigit = true ∨ c = '.'
  | .op c => isOpChar c = true
  | .paren => True
  | .back => True
  | .sign => True
  | .fn _ => True
  | .clear => True
  | .commit _ => True
  | .histRecall _ => False
  | .hclear => False

/-- Every calculator event, with the tokens each UI control can send. -/
def calcAct : Act → Prop
  | .num c => c.isDigit = true ∨ c = '.' ∨ c = '±'
  | .op c => isOpChar c = true
  | _ => True

/-- Every calculator event except the smart parenthesis key. -/
def noParenAct : Act → Prop
  | .paren => False
  | a => calcAct a

/-- States reachable from the initial state by events satisfying P. -/
inductive ReachableVia (P : Act → Prop) : CalcState → Prop where
  | init : ReachableVia P initState
  | step : ∀ a s, P a → ReachableVia P s → ReachableVia P (stepAct a s)

/-! ## Currency converter -/

/-- A fixed exchange-rate pair (script.js:19). The JS rate literals are
read as exact rationals. -/
structure RateInfo where
  rate : ℚ
  fromName : String
  toName : String
  symbol : String
  toSymbol : String

/-- The three pair ids of the RATES table. -/
inductive PairId where
  | usdNgn
  | eurUsd
  | nokUsd
deriving DecidableEq

/-- The RATES table (script.js:19). -/
def RATES : PairId → RateInfo
  | .usdNgn => { rate := 1580, fromName := "USD", toName := "NGN", symbol := "$", toSymbol := "₦" }
  | .eurUsd => { rate := 109 / 100, fromName := "EUR", toName := "USD", symbol := "€", toSymbol := "$" }
  | .nokUsd => { rate := 92 / 1000, fromName := "NOK", toName := "USD", symbol := "kr", toSymbol := "$" }

/-- The converter state: the canonical input digit string, the selected
pair and the direction flag (script.js:14). -/
structure CurrencyState where
  input : String
  pair : PairId
  swapped : Bool

/-- The display marker for unparsable input. -/
def invalidMsg : String := "Invalid"

/-- Model of convertCurrency (script.js:511): parse the input
(parseFloat), divide by the rate when swapped and multiply otherwise,
and display the destination symbol with the result formatted to
exactly two fractional digits; unparsable input displays the Invalid
marker. The returned pair is the result line and the label line. -/
def convertCurrency (s : CurrencyState) : String × String :=
  let data := RATES s.pair
  match jsParseFloat s.input.data with
  | none => (invalidMsg, "")
  | some amount =>
    let result := if s.swapped then amount / data.rate else amount * data.rate
    let toSym := if s.swapped then data.symbol else data.toSymbol
    let fromSym := if s.swapped then data.toSymbol else data.symbol
    let fromName := if s.swapped then data.toName else data.fromName
    let toName := if s.swapped then data.fromName else data.toName
    (toSym ++ " " ++ locale2 result,
     fromSym ++ locale2 amount ++ " " ++ fromName ++ " → " ++ toName)

/-! ## Specification-side definitions and invariants -/

/-- The factorial cases as the specification states them: 1 for 0 and
1, Infinity beyond 170, and the exact product otherwise. -/
def factorialSpec (n : ℕ) : JsNum :=
  if n = 0 ∨ n = 1 then .fin 1
  else if 170 < n then .inf
  else .fin (Nat.factorial n : ℚ)

/-- The invariant of claim C6: no two adjacent characters of the
expression are both binary operators. -/
def NoTwoOps (l : List Char) : Prop :=
  l.Chain' (fun a b => ¬(isOpChar a = true ∧ isOpChar b = true))

/-- Auxiliary invariant: the expression never starts with one of the
three operators that inputOp rejects in leading position (a leading
minus is allowed). toggleSign relies on this when it prepends a
minus. -/
def headOpFree (l : List Char) : Prop :=
  ∀ c ∈ l.head?, ¬(c = '+' ∨ c = '*' ∨ c = '/')

/-- The combined expression invariant. -/
def ExprInv (l : List Char) : Prop := NoTwoOps l ∧ headOpFree l

/-- The invariant claimed by C10: a pending lastAnswer forces an empty
expression. -/
def LAinv (s : CalcState) : Prop := s.lastAnswer ≠ none → s.expression = []

/-! ## Basic list and character lemmas -/

theorem takeWhile_append_all {p : Char → Bool} {l₁ : List Char} (l₂ : List Char)
    (h : ∀ c ∈ l₁, p c = true) :
    (l₁ ++ l₂).takeWhile p = l₁ ++ l₂.takeWhile p := by
  induction l₁ with
  | nil => simp
  | cons a as ih =>
    have ha : p a = true := h a (by simp)
    simp only [List.cons_append, List.takeWhile_cons, ha, if_true]
    simp [ih fun c hc => h c (by simp [hc])]

theorem dropWhile_append_all {p : Char → Bool} {l₁ : List Char} (l₂ : List Char)
    (h : ∀ c ∈ l₁, p c = true) :
    (l₁ ++ l₂).dropWhile p = l₂.dropWhile p := by
  induction l₁ with
  | nil => simp
  | cons a as ih =>
    have ha : p a = true := h a (by simp)
    simp only [List.cons_append, List.dropWhile_cons, ha, if_true]
    exact ih fun c hc => h c (by simp [hc])

theorem takeWhile_neg_head {p : Char → Bool} {c : Char} (cs : List Char)
    (h : p c = false) : (c :: cs).takeWhile p = [] := by
  simp [List.takeWhile_cons, h]

theorem dropWhile_neg_head {p : Char → Bool} {c : Char} (cs : List Char)
    (h : p c = false) : (c :: cs).dropWhile p = c :: cs := by
  simp [List.dropWhile_cons, h]

theorem ne_of_isDigit {c d : Char} (h : c.isDigit = true) (hd : d.isDigit = false) :
    c ≠ d := by
  intro e; subst e; rw [h] at hd; cases hd

theorem isWsChar_false_of_isDigit {c : Char} (h : c.isDigit = true) :
    isWsChar c = false := by
  cases hw : isWsChar c
  · rfl
  · exfalso
    simp only [isWsChar, Bool.or_eq_true, decide_eq_true_eq] at hw
    rcases hw with ((rfl | rfl) | rfl) | rfl <;> simp at h

theorem allowedChar_of_isDigit {c : Char} (h : c.isDigit = true) :
    allowedChar c = true := by
  simp [allowedChar, h]

/-! ## No-op lemmas for the rewriting pipeline -/

theorem replaceAllAux_no_head {p₀ : Char} {ps r : List Char} :
    ∀ (f : ℕ) (l : List Char), (∀ c ∈ l, c ≠ p₀) →
      replaceAllAux (p₀ :: ps) r f l = l := by
  intro f l
  induction l generalizing f with
  | nil => intro _; cases f <;> rfl
  | cons c cs ih =>
    intro h
    cases f with
    | zero => rfl
    | succ f =>
      have hc : c ≠ p₀ := h c (by simp)
      have hnp : (p₀ :: ps).isPrefixOf (c :: cs) = false := by
        simp [List.isPrefixOf]
        intro he
        exact absurd he.symm hc
      simp only [replaceAllAux, hnp]
      simp [ih f fun d hd => h d (by simp [hd])]

theorem replaceAll_no_head {p₀ : Char} {ps r : List Char} (l : List Char)
    (h : ∀ c ∈ l, c ≠ p₀) : replaceAll (p₀ :: ps) r l = l :=
  replaceAllAux_no_head l.length l h

theorem replaceEAux_no_e :
    ∀ (f : ℕ) (prev : Option Char) (l : List Char), (∀ c ∈ l, c ≠ 'e') →
      replaceEAux prev f l = l := by
  intro f prev l
  induction l generalizing f prev with
  | nil => intro _; cases f <;> rfl
  | cons c cs ih =>
    intro h
    cases f with
    | zero => rfl
    | succ f =>
      have hc : c ≠ 'e' := h c (by simp)
      simp only [replaceEAux, hc, false_and, if_false]
      simp [ih f (some c) fun d hd => h d (by simp [hd])]

theorem replaceE_no_e (l : List Char) (h : ∀ c ∈ l, c ≠ 'e') :
    replaceE l = l :=
  replaceEAux_no_e l.length none l h

theorem stripMathAux_no_M :
    ∀ (f : ℕ) (l : List Char), (∀ c ∈ l, c ≠ 'M') → stripMathAux f l = l := by
  intro f l
  induction l generalizing f with
  | nil => intro _; cases f <;> rfl
  | cons c cs ih =>
    intro h
    cases f with
    | zero => rfl
    | succ f =>
      have hc : c ≠ 'M' := h c (by simp)
      have hnp : mathDotPat.isPrefixOf (c :: cs) = false := by
        show (('M' : Char) :: ("ath.").data).isPrefixOf (c :: cs) = false
        simp [List.isPrefixOf]
        intro he
        exact absurd he.symm hc
      simp only [stripMathAux, hnp, false_and, if_false]
      simp [ih f fun d hd => h d (by simp [hd])]

theorem stripMath_no_M (l : List Char) (h : ∀ c ∈ l, c ≠ 'M') :
    stripMath l = l :=
  stripMathAux_no_M l.length l h

/-! ## Lemmas for the factorial-literal pipeline (claim C2) -/

theorem replaceAll_no_head_of {p r : List Char} {p₀ : Char}
    (hp : p.head? = some p₀) (l : List Char) (h : ∀ c ∈ l, c ≠ p₀) :
    replaceAll p r l = l := by
  cases p with
  | nil => cases hp
  | cons a ps =>
    simp only [List.head?_cons, Option.some.injEq] at hp
    subst hp
    exact replaceAll_no_head l h

theorem mem_append_singleton {ds : List Char} {b : Char}
    (hd : ∀ c ∈ ds, c.isDigit = true) {d : Char} (hdd : d.isDigit = false)
    (hb : b ≠ d) : ∀ c ∈ ds ++ [b], c ≠ d := by
  intro c hc
  rcases List.mem_append.1 hc with h | h
  · exact ne_of_isDigit (hd c h) hdd
  · simp only [List.mem_singleton] at h
    subst h; exact hb

theorem rewriteFact_digits_bang {ds : List Char} (hne : ds ≠ [])
    (hd : ∀ c ∈ ds, c.isDigit = true) :
    rewriteFact (ds ++ ['!']) = factorialCallPat ++ ds ++ [')'] := by
  cases ds with
  | nil => exact absurd rfl hne
  | cons c cs =>
    have hc : c.isDigit = true := hd c (by simp)
    have hrun : (c :: (cs ++ ['!'])).takeWhile Char.isDigit = c :: cs := by
      rw [show (c :: (cs ++ ['!']) : List Char) = (c :: cs) ++ ['!'] by simp]
      rw [takeWhile_append_all _ fun d hdm => hd d hdm]
      simp [takeWhile_neg_head]
    have hrest : (c :: (cs ++ ['!'])).dropWhile Char.isDigit = ['!'] := by
      rw [show (c :: (cs ++ ['!']) : List Char) = (c :: cs) ++ ['!'] by simp]
      rw [dropWhile_append_all _ fun d hdm => hd d hdm]
      simp [dropWhile_neg_head]
    show rewriteFactAux (c :: cs ++ ['!']).length (c :: cs ++ ['!']) = _
    have hlen : (c :: cs ++ ['!']).length = cs.length + 1 + 1 := by simp
    rw [hlen]
    simp only [rewriteFactAux, hc, if_true, List.append_eq]
    rw [hrest]
    simp only [hrun]
    simp [rewriteFactAux]

theorem count_eq_zero_digits {ds : List Char} (hd : ∀ c ∈ ds, c.isDigit = true)
    {d : Char} (hdd : d.isDigit = false) : ds.count d = 0 :=
  List.count_eq_zero.2 fun hm => ne_of_isDigit (hd d hm) hdd rfl

theorem replaceAllAux_once {p₀ : Char} {ps r rest : List Char} (f : ℕ)
    (h : ∀ c ∈ rest, c ≠ p₀) :
    replaceAllAux (p₀ :: ps) r (f + 1) ((p₀ :: ps) ++ rest) = r ++ rest := by
  have hpre : (p₀ :: ps).isPrefixOf (p₀ :: (ps ++ rest)) = true := by
    rw [show (p₀ :: (ps ++ rest) : List Char) = (p₀ :: ps) ++ rest by simp]
    exact List.isPrefixOf_iff_prefix.2 (List.prefix_append _ _)
  rw [show ((p₀ :: ps) ++ rest : List Char) = p₀ :: (ps ++ rest) by simp]
  simp only [replaceAllAux, hpre, if_true]
  rw [show List.drop (p₀ :: ps).length (p₀ :: (ps ++ rest)) = rest by
    simp [List.drop_left]]
  rw [replaceAllAux_no_head f rest h]

theorem isIdentChar_factorialName : ∀ c ∈ factorialName, isIdentChar c = true := by
  decide

theorem tokenizeAux_nil (f : ℕ) : tokenizeAux f [] = .ok [] := by
  cases f <;> rfl

theorem tokenizeAux_f_ident (f : ℕ) (cs : List Char) :
    tokenizeAux (f + 1) ('f' :: cs) =
      (tokenizeAux f (('f' :: cs).dropWhile isIdentChar)).map
        (fun ts => Tok.ident (('f' :: cs).takeWhile isIdentChar) :: ts) := rfl

theorem tokenizeAux_lp (f : ℕ) (cs : List Char) :
    tokenizeAux (f + 1) ('(' :: cs) =
      (tokenizeAux f cs).map (fun ts => Tok.lp :: ts) := rfl

theorem tokenizeAux_rp (f : ℕ) (cs : List Char) :
    tokenizeAux (f + 1) (')' :: cs) =
      (tokenizeAux f cs).map (fun ts => Tok.rp :: ts) := rfl

theorem tokenizeAux_cons (f : ℕ) (c : Char) (cs : List Char) :
    tokenizeAux (f + 1) (c :: cs) =
      match tokHead c cs with
      | .error e => .error e
      | .ok (none, r) => tokenizeAux f r
      | .ok (some t, r) => (tokenizeAux f r).map (fun ts => t :: ts) := rfl

theorem tokHead_digit_close (c : Char) (cs rest : List Char)
    (hw : isWsChar c = false) (hdg : c.isDigit = true)
    (hz : ¬(c = '0' ∧ 2 ≤ ((c :: cs).takeWhile Char.isDigit).length))
    (hr : (c :: cs).dropWhile Char.isDigit = ')' :: rest) :
    tokHead c cs =
      .ok (some (Tok.num (digitsVal ((c :: cs).takeWhile Char.isDigit) : ℚ)),
        ')' :: rest) := by
  simp only [tokHead, hw, hdg, Bool.false_eq_true, if_false, if_true, hz]
  rw [hr]
  rfl

theorem tokenizeAux_digit_close (f : ℕ) (c : Char) (cs rest : List Char)
    (hw : isWsChar c = false) (hdg : c.isDigit = true)
    (hz : ¬(c = '0' ∧ 2 ≤ ((c :: cs).takeWhile Char.isDigit).length))
    (hr : (c :: cs).dropWhile Char.isDigit = ')' :: rest) :
    tokenizeAux (f + 1) (c :: cs) =
      (tokenizeAux f (')' :: rest)).map
        (fun ts => Tok.num (digitsVal ((c :: cs).takeWhile Char.isDigit) : ℚ) :: ts) := by
  rw [tokenizeAux_cons, tokHead_digit_close c cs rest hw hdg hz hr]

theorem tokenize_c2 {ds : List Char} (hne : ds ≠ [])
    (hd : ∀ c ∈ ds, c.isDigit = true) (hz : ds.head? = some '0' → ds = ['0'])
    (f : ℕ) (hf : 4 ≤ f) :
    tokenizeAux f (factorialName ++ ('(' :: (ds ++ [')']))) =
      .ok [Tok.ident factorialName, Tok.lp, Tok.num (digitsVal ds : ℚ), Tok.rp] := by
  obtain ⟨g, rfl⟩ : ∃ g, f = g + 4 := ⟨f - 4, by omega⟩
  have hrun : (('f' :: (("actorial").data ++ ('(' :: (ds ++ [')'])))).takeWhile
      isIdentChar) = factorialName := by
    show ((factorialName ++ ('(' :: (ds ++ [')']))).takeWhile isIdentChar) = _
    rw [takeWhile_append_all _ isIdentChar_factorialName,
      takeWhile_neg_head _ (by decide), List.append_nil]
  have hdrop : (('f' :: (("actorial").data ++ ('(' :: (ds ++ [')'])))).dropWhile
      isIdentChar) = '(' :: (ds ++ [')']) := by
    show ((factorialName ++ ('(' :: (ds ++ [')']))).dropWhile isIdentChar) = _
    rw [dropWhile_append_all _ isIdentChar_factorialName]
    exact dropWhile_neg_head _ (by decide)
  rw [show (factorialName ++ ('(' :: (ds ++ [')'])) : List Char) =
    'f' :: (("actorial").data ++ ('(' :: (ds ++ [')']))) from rfl]
  rw [show (g + 4 : ℕ) = g + 3 + 1 from rfl, tokenizeAux_f_ident, hrun, hdrop]
  rw [show (g + 3 : ℕ) = g + 2 + 1 from rfl, tokenizeAux_lp]
  cases ds with
  | nil => exact absurd rfl hne
  | cons d ds' =>
    have hdd : d.isDigit = true := hd d (by simp)
    have hw : isWsChar d = false := isWsChar_false_of_isDigit hdd
    have hrun2 : ((d :: (ds' ++ [')'])).takeWhile Char.isDigit) = d :: ds' := by
      rw [show (d :: (ds' ++ [')']) : List Char) = (d :: ds') ++ [')'] by simp]
      rw [takeWhile_append_all _ fun e he => hd e he,
        takeWhile_neg_head _ (by decide), List.append_nil]
    have hdrop2 : ((d :: (ds' ++ [')'])).dropWhile Char.isDigit) = ')' :: [] := by
      rw [show (d :: (ds' ++ [')']) : List Char) = (d :: ds') ++ [')'] by simp]
      rw [dropWhile_append_all _ fun e he => hd e he]
      exact dropWhile_neg_head _ (by decide)
    have hzz : ¬(d = '0' ∧ 2 ≤ ((d :: (ds' ++ [')'])).takeWhile Char.isDigit).length) := by
      rw [hrun2]
      rintro ⟨rfl, hlen2⟩
      have h0 := hz rfl
      simp only [List.cons.injEq, true_and] at h0
      rw [h0] at hlen2
      simp at hlen2
    rw [show (d :: ds' ++ [')'] : List Char) = d :: (ds' ++ [')']) by simp]
    rw [show (g + 2 : ℕ) = g + 1 + 1 from rfl,
      tokenizeAux_digit_close (g + 1) d (ds' ++ [')']) [] hw hdd hzz hdrop2, hrun2]
    rw [show (g + 1 : ℕ) = g + 0 + 1 from rfl, tokenizeAux_rp, tokenizeAux_nil]
    rfl

theorem range'_foldl_factorial :
    ∀ n : ℕ, 1 ≤ n →
      (List.range' 2 (n - 1)).foldl (fun (a : ℚ) (i : ℕ) => a * (i : ℚ)) (1 : ℚ) =
        (Nat.factorial n : ℚ) := by
  intro n
  induction n with
  | zero => omega
  | succ m ih =>
    intro _
    rcases Nat.eq_zero_or_pos m with rfl | hm
    · simp [Nat.factorial]
    · have hrw : m + 1 - 1 = (m - 1) + 1 := by omega
      rw [hrw, List.range'_concat, List.foldl_append, ih hm]
      have h2 : 2 + 1 * (m - 1) = m + 1 := by omega
      rw [h2]
      simp only [List.foldl_cons, List.foldl_nil]
      push_cast [Nat.factorial_succ]
      ring

theorem jsRound_natCast (n : ℕ) : jsRound (n : ℚ) = (n : ℤ) := by
  unfold jsRound
  rw [Int.floor_eq_iff]
  constructor
  · push_cast
    linarith
  · push_cast
    linarith

theorem evalFactorial_natCast (n : ℕ) :
    evalFactorial (.fin (n : ℚ)) = factorialSpec n := by
  simp only [evalFactorial, factorialSpec, jsRound_natCast]
  rw [if_neg (Int.not_lt.2 (Int.natCast_nonneg n))]
  by_cases h01 : n = 0 ∨ n = 1
  · rw [if_pos (by rcases h01 with rfl | rfl <;> simp), if_pos h01]
  · have hm : ¬((n : ℤ) = 0 ∨ (n : ℤ) = 1) := by
      push_neg at h01 ⊢
      exact ⟨by exact_mod_cast h01.1, by exact_mod_cast h01.2⟩
    rw [if_neg hm, if_neg h01]
    by_cases h170 : 170 < n
    · rw [if_pos (by exact_mod_cast h170), if_pos h170]
    · rw [if_neg (by exact_mod_cast h170), if_neg h170]
      have hn1 : 1 ≤ n := by omega
      rw [show ((n : ℤ).toNat : ℕ) = n from by simp]
      rw [range'_foldl_factorial n hn1]

theorem parseGo_factorial_call (q : ℚ) :
    parseGo 20 .pAdd [Tok.ident factorialName, Tok.lp, Tok.num q, Tok.rp] =
      .ok (evalFactorial (.fin q), []) := rfl

theorem evaluateExpression_digits_bang {ds : List Char} (hne : ds ≠ [])
    (hd : ∀ c ∈ ds, c.isDigit = true) (hz : ds.head? = some '0' → ds = ['0']) :
    evaluateExpression (ds ++ ['!']) = .ok (factorialSpec (digitsVal ds)) := by
  have h1 : replaceAll piPat piRep (ds ++ ['!']) = ds ++ ['!'] :=
    @replaceAll_no_head_of piPat piRep 'π' rfl (ds ++ ['!'])
      (mem_append_singleton hd (by decide) (by decide))
  have h2 : replaceE (ds ++ ['!']) = ds ++ ['!'] :=
    replaceE_no_e _ (mem_append_singleton hd (by decide) (by decide))
  have h3 : replaceAll sinPat sinRep (ds ++ ['!']) = ds ++ ['!'] :=
    @replaceAll_no_head_of sinPat sinRep 's' rfl (ds ++ ['!'])
      (mem_append_singleton hd (by decide) (by decide))
  have h4 : replaceAll cosPat cosRep (ds ++ ['!']) = ds ++ ['!'] :=
    @replaceAll_no_head_of cosPat cosRep 'c' rfl (ds ++ ['!'])
      (mem_append_singleton hd (by decide) (by decide))
  have h5 : replaceAll tanPat tanRep (ds ++ ['!']) = ds ++ ['!'] :=
    @replaceAll_no_head_of tanPat tanRep 't' rfl (ds ++ ['!'])
      (mem_append_singleton hd (by decide) (by decide))
  have h6 : replaceAll logPat logRep (ds ++ ['!']) = ds ++ ['!'] :=
    @replaceAll_no_head_of logPat logRep 'l' rfl (ds ++ ['!'])
      (mem_append_singleton hd (by decide) (by decide))
  have h7 : replaceAll lnPat lnRep (ds ++ ['!']) = ds ++ ['!'] :=
    @replaceAll_no_head_of lnPat lnRep 'l' rfl (ds ++ ['!'])
      (mem_append_singleton hd (by decide) (by decide))
  have h8 : replaceAll sqrtPat sqrtRep (ds ++ ['!']) = ds ++ ['!'] :=
    @replaceAll_no_head_of sqrtPat sqrtRep 's' rfl (ds ++ ['!'])
      (mem_append_singleton hd (by decide) (by decide))
  have h9 : replaceAll absPat absRep (ds ++ ['!']) = ds ++ ['!'] :=
    @replaceAll_no_head_of absPat absRep 'a' rfl (ds ++ ['!'])
      (mem_append_singleton hd (by decide) (by decide))
  have h10 : replaceAll caretPat caretRep (ds ++ ['!']) = ds ++ ['!'] :=
    @replaceAll_no_head_of caretPat caretRep '^' rfl (ds ++ ['!'])
      (mem_append_singleton hd (by decide) (by decide))
  have h11 : rewriteFact (ds ++ ['!']) = factorialCallPat ++ ds ++ [')'] :=
    rewriteFact_digits_bang hne hd
  have hco : (factorialCallPat ++ ds ++ [')']).count '(' = 1 := by
    simp only [List.count_append]
    rw [count_eq_zero_digits hd (by decide)]
    decide
  have hcc : (factorialCallPat ++ ds ++ [')']).count ')' = 1 := by
    simp only [List.count_append]
    rw [count_eq_zero_digits hd (by decide)]
    decide
  have hassoc : factorialCallPat ++ ds ++ [')'] =
      factorialName ++ ('(' :: (ds ++ [')'])) := rfl
  have hstrip : stripMath (factorialName ++ ('(' :: (ds ++ [')']))) =
      factorialName ++ ('(' :: (ds ++ [')'])) := by
    refine stripMath_no_M _ ?_
    intro c hc
    rw [← hassoc] at hc
    rcases List.mem_append.1 hc with hc | hc
    · rcases List.mem_append.1 hc with hc | hc
      · exact (by decide : ∀ x ∈ factorialCallPat, x ≠ 'M') c hc
      · exact ne_of_isDigit (hd c hc) (by decide)
    · simp only [List.mem_singleton] at hc
      subst hc
      decide
  have hlen : (factorialName ++ ('(' :: (ds ++ [')']))).length = ds.length + 11 := by
    simp [factorialName]
  have hfstrip : replaceAll factorialName [] (factorialName ++ ('(' :: (ds ++ [')']))) =
      '(' :: (ds ++ [')']) := by
    unfold replaceAll
    rw [hlen]
    rw [show (ds.length + 11 : ℕ) = ds.length + 10 + 1 from rfl]
    have := @replaceAllAux_once 'f' (("actorial").data) [] ('(' :: (ds ++ [')']))
      (ds.length + 10) ?_
    · exact this
    · intro c hc
      rcases List.mem_cons.1 hc with rfl | hc
      · decide
      · rcases List.mem_append.1 hc with hc | hc
        · exact ne_of_isDigit (hd c hc) (by decide)
        · simp only [List.mem_singleton] at hc
          subst hc
          decide
  have hany : (('(' :: (ds ++ [')'])).any (fun c => ! allowedChar c)) = false := by
    simp only [List.any_eq_false]
    intro c hc
    rcases List.mem_cons.1 hc with rfl | hc
    · decide
    · rcases List.mem_append.1 hc with hc | hc
      · simp [allowedChar_of_isDigit (hd c hc)]
      · simp only [List.mem_singleton] at hc
        subst hc
        decide
  have htok : tokenizeAux (factorialName ++ ('(' :: (ds ++ [')']))).length
      (factorialName ++ ('(' :: (ds ++ [')']))) =
      .ok [Tok.ident factorialName, Tok.lp, Tok.num (digitsVal ds : ℚ), Tok.rp] :=
    tokenize_c2 hne hd hz _ (by rw [hlen]; omega)
  have hejs : evalJs (factorialName ++ ('(' :: (ds ++ [')']))) =
      .ok (evalFactorial (.fin (digitsVal ds : ℚ))) := by
    unfold evalJs
    rw [htok]
    rfl
  unfold evaluateExpression
  simp only [h1, h2, h3, h4, h5, h6, h7, h8, h9, h10, h11, hassoc]
  rw [show (factorialName ++ ('(' :: (ds ++ [')']))).count '(' -
      (factorialName ++ ('(' :: (ds ++ [')']))).count ')' = 0 from by
    rw [← hassoc, hco, hcc]]
  simp only [List.replicate, List.append_nil]
  rw [hstrip, hfstrip]
  simp only [hany, Bool.false_eq_true, if_false]
  rw [hejs, evalFactorial_natCast]

/-! ## Claim C1 -/

/-- Claim C1, as stated, is false: evaluating the expression -1! is not
a NumericError. The factorial rewrite binds only the digit literal, so
the rewritten text is -factorial(1), which evaluates to -1 (not NaN),
and a commit on -1! displays -1 without the error styling. -/
theorem c1_counterexample :
    evaluateExpression (("-1!").data) = .ok (.fin (-1)) ∧
    (Except.ok (JsNum.fin (-1)) : Except String JsNum) ≠ .ok .nan ∧
    (calculate "12:00:00" { initState with expression := ("-1!").data }).currentResult
      = "-1" ∧
    ("-1" : String) ≠ errorMsg ∧
    (calculate "12:00:00" { initState with expression := ("-1!").data }).errorFlag
      = false := by
  have hs : (calculate "12:00:00" { initState with expression := ("-1!").data }) =
      { expression := []
        currentResult := "-1"
        lastAnswer := some (.fin (-1))
        history := [⟨("-1!").data, "-1", "12:00:00"⟩]
        errorFlag := false } := by
    with_unfolding_all rfl
  refine ⟨by with_unfolding_all rfl, by simp, ?_, by decide, ?_⟩
  · rw [hs]
  · rw [hs]

/-- Claim C1 amended: evaluating -1! succeeds with the value -1 (the
unary minus is applied to factorial(1) = 1, because the factorial
rewrite captures only the digit run), and a commit displays -1 with no
error state, storing -1 as the last answer. -/
theorem c1_amended :
    evaluateExpression (("-1!").data) = .ok (.fin (-1)) ∧
    (calculate "12:00:00" { initState with expression := ("-1!").data }) =
      { expression := []
        currentResult := "-1"
        lastAnswer := some (.fin (-1))
        history := [⟨("-1!").data, "-1", "12:00:00"⟩]
        errorFlag := false } := by
  constructor <;> with_unfolding_all rfl

/-! ## Claim C2 -/

/-- Claim C2, as stated over every digit sequence, is false on the
leading-zero literals: the Function body runs under "use strict"
(script.js:336), which rejects the literal 05 as a SyntaxError, so
evaluating 05! fails and a commit on it displays Error, even though
the factorial of 5 is 120. -/
theorem c2_counterexample :
    evaluateExpression (("05!").data) = .error errSyntax ∧
    factorialSpec (digitsVal (("05").data)) = .fin 120 ∧
    (calculate "12:00:00" { initState with expression := ("05!").data }).currentResult
      = errorMsg ∧
    (calculate "12:00:00" { initState with expression := ("05!").data }).errorFlag
      = true := by
  refine ⟨by with_unfolding_all rfl, by with_unfolding_all rfl, ?_, ?_⟩ <;>
    with_unfolding_all rfl

/-- Claim C2 amended: for every nonnegative integer literal without a
leading zero (the decimal integer literals strict mode accepts)
followed by the factorial mark, the evaluator returns the factorial
of the literal with the cases of the specification (1 for 0 and 1,
Infinity above 170, the exact product otherwise); in particular 5!
evaluates to 120 and 171! reports Infinity. -/
theorem c2_amended (ds : List Char) (hne : ds ≠ [])
    (hd : ∀ c ∈ ds, c.isDigit = true) (hz : ds.head? = some '0' → ds = ['0']) :
    evaluateExpression (ds ++ ['!']) = .ok (factorialSpec (digitsVal ds)) ∧
    evaluateExpression (("5!").data) = .ok (.fin 120) ∧
    evaluateExpression (("171!").data) = .ok .inf :=
  ⟨evaluateExpression_digits_bang hne hd hz,
   by with_unfolding_all rfl, by with_unfolding_all rfl⟩

/-- Witness for the amended C2 at the literal 5. -/
theorem c2_witness :
    evaluateExpression (("5").data ++ ['!']) =
      .ok (factorialSpec (digitsVal (("5").data))) ∧
    factorialSpec (digitsVal (("5").data)) = .fin 120 :=
  ⟨(c2_amended (("5").data) (by decide) (by decide) (by decide)).1,
   by with_unfolding_all rfl⟩

/-! ## Claim C3 -/

theorem lastCharIsOp_concat (l : List Char) (c : Char) :
    lastCharIsOp (l ++ [c]) = isOpChar c := by
  simp [lastCharIsOp, List.getLast?_concat]

/-- Claim C3, as stated over every expression state, is false: with a
pending lastAnswer of 4 and the expression consisting of the single
character -, pressing + twice first erases the minus (the rejected
leading + returns early, keeping the pending answer), then seeds the
expression from the answer, giving 4+, while pressing + once leaves
the empty expression. -/
theorem c3_counterexample :
    (inputOp '+' (inputOp '+'
        (⟨['-'], "0", some (.fin 4), [], false⟩ : CalcState))).expression ≠
      (inputOp '+' (⟨['-'], "0", some (.fin 4), [], false⟩ : CalcState)).expression := by
  with_unfolding_all decide

/-- Claim C3 amended: in every state with no pending lastAnswer,
applying appendOperator twice yields the same expression as applying
it once with the second operator; with a pending lastAnswer the two
differ exactly when the expression is a lone operator character and
the first operator is not the minus. -/
theorem c3_amended (s : CalcState) (h : s.lastAnswer = none) (op1 op2 : Char)
    (h1 : isOpChar op1 = true) (h2 : isOpChar op2 = true) :
    (inputOp op2 (inputOp op1 s)).expression = (inputOp op2 s).expression := by
  obtain ⟨e, cr, la, hist, ef⟩ := s
  simp only at h
  subst h
  have hsing : ∀ c : Char, lastCharIsOp [c] = isOpChar c := fun c => by
    simp [lastCharIsOp]
  by_cases he : e = []
  · subst he
    by_cases hop1 : op1 = '-'
    · subst hop1
      by_cases hop2 : op2 = '-'
      · subst hop2
        simp [inputOp, hsing, isOpChar]
      · simp [inputOp, hsing, isOpChar, hop2]
    · simp [inputOp, hop1]
  · by_cases hlast : lastCharIsOp e = true
    · by_cases he2 : e.dropLast = []
      · by_cases hop1 : op1 = '-'
        · subst hop1
          by_cases hop2 : op2 = '-'
          · subst hop2
            simp [inputOp, he, hlast, he2, hsing, isOpChar]
          · simp [inputOp, he, hlast, he2, hsing, isOpChar, hop2]
        · by_cases hop2 : op2 = '-'
          · subst hop2
            simp [inputOp, he, hlast, he2, hop1]
          · simp [inputOp, he, hlast, he2, hop1, hop2]
      · simp [inputOp, he, hlast, he2, lastCharIsOp_concat, List.dropLast_concat,
          h1, h2]
    · have hlast2 : lastCharIsOp e = false := by
        revert hlast
        cases lastCharIsOp e <;> simp
      simp [inputOp, he, hlast2, lastCharIsOp_concat, List.dropLast_concat, h1, h2]

/-- Witness for the amended C3 at the initial state with + then *. -/
theorem c3_witness :
    (inputOp '*' (inputOp '+' initState)).expression =
      (inputOp '*' initState).expression :=
  c3_amended initState rfl '+' '*' (by decide) (by decide)

/-! ## Claim C4 -/

theorem liveEvaluate_expression (s : CalcState) :
    (liveEvaluate s).expression = s.expression := by
  unfold liveEvaluate
  split
  · rfl
  · dsimp only
    split
    · rfl
    · split <;> rfl

theorem liveEvaluate_lastAnswer (s : CalcState) :
    (liveEvaluate s).lastAnswer = s.lastAnswer := by
  unfold liveEvaluate
  split
  · rfl
  · dsimp only
    split
    · rfl
    · split <;> rfl

theorem liveEvaluate_history (s : CalcState) :
    (liveEvaluate s).history = s.history := by
  unfold liveEvaluate
  split
  · rfl
  · dsimp only
    split
    · rfl
    · split <;> rfl

/-- Claim C4: the smart parenthesis appends an opening parenthesis when
the expression is empty, ends in an opening parenthesis or ends in a
binary operator; otherwise a closing parenthesis when more are open
than closed; otherwise an implicit multiplication with a new opening
group; with the four concrete cases of the specification. -/
theorem c4_smart_parenthesis (s : CalcState) :
    (inputParenthesis s).expression =
      (if s.expression = [] ∨ s.expression.getLast? = some '(' ∨
          lastCharIsOp s.expression = true then s.expression ++ ("(").data
        else if s.expression.count ')' < s.expression.count '(' then
          s.expression ++ (")").data
        else s.expression ++ ("*(").data) ∧
    (inputParenthesis initState).expression = ("(").data ∧
    (inputParenthesis { initState with expression := ("(").data }).expression =
      ("((").data ∧
    (inputParenthesis { initState with expression := ("(5").data }).expression =
      ("(5)").data ∧
    (inputParenthesis { initState with expression := ("(5)").data }).expression =
      ("(5)*(").data := by
  refine ⟨?_, ?_, ?_, ?_, ?_⟩
  · unfold inputParenthesis
    rw [liveEvaluate_expression]
    split_ifs <;> rfl
  all_goals with_unfolding_all decide

/-! ## Claim C5 -/

theorem isSfx_iff {p l : List Char} : isSfx p l = true ↔ p <:+ l := by
  unfold isSfx
  rw [List.isPrefixOf_iff_prefix, List.reverse_prefix]

theorem suffix_total {l₁ l₂ l₃ : List Char} (h1 : l₁ <:+ l₃) (h2 : l₂ <:+ l₃) :
    l₁ <:+ l₂ ∨ l₂ <:+ l₁ := by
  have r1 := List.reverse_prefix.mpr h1
  have r2 := List.reverse_prefix.mpr h2
  rcases List.prefix_or_prefix_of_prefix r1 r2 with hr | hr
  · exact Or.inl (List.reverse_prefix.mp hr)
  · exact Or.inr (List.reverse_prefix.mp hr)

theorem isSfx_false_of_conflict {e p q : List Char} (hq : ¬(q <:+ p ∨ p <:+ q)) :
    isSfx q (e ++ p) = false := by
  cases hs : isSfx q (e ++ p)
  · rfl
  · exact absurd (suffix_total (isSfx_iff.1 hs) (List.suffix_append e p)) hq

theorem isSfx_self_append (e p : List Char) : isSfx p (e ++ p) = true :=
  isSfx_iff.2 (List.suffix_append e p)

theorem funcTailLen_append {e p : List Char} (hp : p ∈ funcPrefixes) :
    funcTailLen (e ++ p) = some (p.length - 1) := by
  fin_cases hp
  · simp [funcTailLen, isSfx_self_append]
  · have t0 : isSfx (("sin(").data) (e ++ ("cos(").data) = false :=
      @isSfx_false_of_conflict e (("cos(").data) (("sin(").data) (by decide)
    simp [funcTailLen, isSfx_self_append, t0]
  · have t0 : isSfx (("sin(").data) (e ++ ("tan(").data) = false :=
      @isSfx_false_of_conflict e (("tan(").data) (("sin(").data) (by decide)
    have t1 : isSfx (("cos(").data) (e ++ ("tan(").data) = false :=
      @isSfx_false_of_conflict e (("tan(").data) (("cos(").data) (by decide)
    simp [funcTailLen, isSfx_self_append, t0, t1]
  · have t0 : isSfx (("sin(").data) (e ++ ("log(").data) = false :=
      @isSfx_false_of_conflict e (("log(").data) (("sin(").data) (by decide)
    have t1 : isSfx (("cos(").data) (e ++ ("log(").data) = false :=
      @isSfx_false_of_conflict e (("log(").data) (("cos(").data) (by decide)
    have t2 : isSfx (("tan(").data) (e ++ ("log(").data) = false :=
      @isSfx_false_of_conflict e (("log(").data) (("tan(").data) (by decide)
    simp [funcTailLen, isSfx_self_append, t0, t1, t2]
  · have t0 : isSfx (("sin(").data) (e ++ ("ln(").data) = false :=
      @isSfx_false_of_conflict e (("ln(").data) (("sin(").data) (by decide)
    have t1 : isSfx (("cos(").data) (e ++ ("ln(").data) = false :=
      @isSfx_false_of_conflict e (("ln(").data) (("cos(").data) (by decide)
    have t2 : isSfx (("tan(").data) (e ++ ("ln(").data) = false :=
      @isSfx_false_of_conflict e (("ln(").data) (("tan(").data) (by decide)
    have t3 : isSfx (("log(").data) (e ++ ("ln(").data) = false :=
      @isSfx_false_of_conflict e (("ln(").data) (("log(").data) (by decide)
    simp [funcTailLen, isSfx_self_append, t0, t1, t2, t3]
  · have t0 : isSfx (("sin(").data) (e ++ ("sqrt(").data) = false :=
      @isSfx_false_of_conflict e (("sqrt(").data) (("sin(").data) (by decide)
    have t1 : isSfx (("cos(").data) (e ++ ("sqrt(").data) = false :=
      @isSfx_false_of_conflict e (("sqrt(").data) (("cos(").data) (by decide)
    have t2 : isSfx (("tan(").data) (e ++ ("sqrt(").data) = false :=
      @isSfx_false_of_conflict e (("sqrt(").data) (("tan(").data) (by decide)
    have t3 : isSfx (("log(").data) (e ++ ("sqrt(").data) = false :=
      @isSfx_false_of_conflict e (("sqrt(").data) (("log(").data) (by decide)
    have t4 : isSfx (("ln(").data) (e ++ ("sqrt(").data) = false :=
      @isSfx_false_of_conflict e (("sqrt(").data) (("ln(").data) (by decide)
    simp [funcTailLen, isSfx_self_append, t0, t1, t2, t3, t4]
  · have t0 : isSfx (("sin(").data) (e ++ ("abs(").data) = false :=
      @isSfx_false_of_conflict e (("abs(").data) (("sin(").data) (by decide)
    have t1 : isSfx (("cos(").data) (e ++ ("abs(").data) = false :=
      @isSfx_false_of_conflict e (("abs(").data) (("cos(").data) (by decide)
    have t2 : isSfx (("tan(").data) (e ++ ("abs(").data) = false :=
      @isSfx_false_of_conflict e (("abs(").data) (("tan(").data) (by decide)
    have t3 : isSfx (("log(").data) (e ++ ("abs(").data) = false :=
      @isSfx_false_of_conflict e (("abs(").data) (("log(").data) (by decide)
    have t4 : isSfx (("ln(").data) (e ++ ("abs(").data) = false :=
      @isSfx_false_of_conflict e (("abs(").data) (("ln(").data) (by decide)
    have t5 : isSfx (("sqrt(").data) (e ++ ("abs(").data) = false :=
      @isSfx_false_of_conflict e (("abs(").data) (("sqrt(").data) (by decide)
    simp [funcTailLen, isSfx_self_append, t0, t1, t2, t3, t4, t5]

theorem backspaceExpr_append {e p : List Char} (hp : p ∈ funcPrefixes) :
    backspaceExpr (e ++ p) = e := by
  unfold backspaceExpr
  rw [funcTailLen_append hp]
  have hplen : 1 ≤ p.length := by fin_cases hp <;> decide
  have h3 : (e ++ p).length - (p.length - 1 + 1) = e.length := by
    simp only [List.length_append]
    omega
  dsimp only
  rw [h3]
  exact List.take_left ..

/-- Claim C5: whenever the expression ends in one of the recognized
function prefixes, backspace removes the whole prefix token (function
name and opening parenthesis) at once; in particular backspace on the
expression sin( yields the empty expression. -/
theorem c5_backspace_func_token (e p : List Char) (hp : p ∈ funcPrefixes) :
    backspaceExpr (e ++ p) = e ∧
    (backspace { initState with expression := e ++ p }).expression = e ∧
    (backspace { initState with expression := ("sin(").data }).expression = [] := by
  have hne : e ++ p ≠ [] := by
    fin_cases hp <;> simp
  refine ⟨backspaceExpr_append hp, ?_, by with_unfolding_all decide⟩
  unfold backspace
  rw [if_neg (by simpa using hne)]
  rw [liveEvaluate_expression]
  exact backspaceExpr_append hp

/-- Witness for C5 at the expression 2+sqrt( . -/
theorem c5_witness :
    backspaceExpr (("2+").data ++ ("sqrt(").data) = ("2+").data :=
  (c5_backspace_func_token (("2+").data) (("sqrt(").data) (by decide)).1

/-! ## Claim C7 -/

theorem toggleSign_history (s : CalcState) : (toggleSign s).history = s.history := by
  unfold toggleSign
  rw [liveEvaluate_history]
  split_ifs <;> rfl

theorem inputNum_history (c : Char) (s : CalcState) :
    (inputNum c s).history = s.history := by
  unfold inputNum
  split_ifs <;> first
    | rfl
    | exact toggleSign_history s
    | (rw [liveEvaluate_history])

theorem inputOp_history (c : Char) (s : CalcState) :
    (inputOp c s).history = s.history := by
  unfold inputOp
  dsimp only
  split_ifs <;> rfl

theorem inputParenthesis_history (s : CalcState) :
    (inputParenthesis s).history = s.history := by
  unfold inputParenthesis
  rw [liveEvaluate_history]
  split_ifs <;> rfl

theorem backspace_history (s : CalcState) : (backspace s).history = s.history := by
  unfold backspace
  split_ifs <;> first | rfl | rw [liveEvaluate_history]

theorem sciFunc_history (f : SciFn) (s : CalcState) :
    (sciFunc f s).history = s.history := by
  unfold sciFunc
  rw [liveEvaluate_history]
  split_ifs <;> rfl

theorem recallHistory_history (i : ℕ) (s : CalcState) :
    (recallHistory i s).history = s.history := by
  unfold recallHistory
  split
  · rfl
  · split <;> rfl

theorem addHistoryL_length_le (en : HistoryEntry) (h : List HistoryEntry)
    (hl : h.length ≤ 50) : (addHistoryL en h).length ≤ 50 := by
  unfold addHistoryL
  dsimp only
  split_ifs with hc
  · simp only [List.length_dropLast, List.length_cons]
    omega
  · simp only [List.length_cons] at hc ⊢
    omega

theorem calculate_history_bound (t : String) (s : CalcState)
    (hl : s.history.length ≤ 50) : (calculate t s).history.length ≤ 50 := by
  unfold calculate
  split_ifs
  · exact hl
  · split
    · exact hl
    · exact hl
    · exact hl
    · exact hl
    · exact addHistoryL_length_le _ _ hl

theorem history_bound_invariant (s : CalcState) (hr : ReachableVia calcAct s) :
    s.history.length ≤ 50 := by
  induction hr with
  | init => simp [initState]
  | step a s _ _ ih =>
    cases a with
    | num c => rw [stepAct, inputNum_history]; exact ih
    | op c => rw [stepAct, inputOp_history]; exact ih
    | paren => rw [stepAct, inputParenthesis_history]; exact ih
    | back => rw [stepAct, backspace_history]; exact ih
    | sign => rw [stepAct, toggleSign_history]; exact ih
    | fn f => rw [stepAct, sciFunc_history]; exact ih
    | clear => exact ih
    | commit t => exact calculate_history_bound t s ih
    | histRecall i => rw [stepAct, recallHistory_history]; exact ih
    | hclear => simp [stepAct, clearHistory]

theorem foldl_addHistoryL_small (l : List HistoryEntry) (hl : l.length ≤ 50) :
    l.foldl (fun h en => addHistoryL en h) [] = l.reverse := by
  induction l using List.reverseRecOn with
  | nil => rfl
  | append_singleton l a ih =>
    rw [List.foldl_append]
    simp only [List.foldl_cons, List.foldl_nil]
    rw [ih (by simp at hl; omega)]
    unfold addHistoryL
    dsimp only
    rw [if_neg (by simp at hl ⊢; omega)]
    simp

/-- Claim C7: the history ledger never exceeds 50 entries in any
reachable state, and recording 51 entries into an empty ledger leaves
exactly 50, with the 51st (most recent) entry at index 0 and the
first-recorded entry dropped (the result is the reversal of all but
the first recording). -/
theorem c7_history_cap (s : CalcState) (hr : ReachableVia calcAct s)
    (entries : List HistoryEntry) (h51 : entries.length = 51) :
    s.history.length ≤ 50 ∧
    (entries.foldl (fun h en => addHistoryL en h) []).length = 50 ∧
    (entries.foldl (fun h en => addHistoryL en h) []).head? = entries.getLast? ∧
    entries.foldl (fun h en => addHistoryL en h) [] = (entries.drop 1).reverse := by
  refine ⟨history_bound_invariant s hr, ?_⟩
  rcases List.eq_nil_or_concat entries with rfl | ⟨l, a, rfl⟩
  · simp at h51
  · have hl : l.length = 50 := by simp at h51; omega
    have hlne : l ≠ [] := by
      intro h
      rw [h] at hl
      simp at hl
    rw [List.concat_eq_append] at h51 ⊢
    rw [List.foldl_append]
    simp only [List.foldl_cons, List.foldl_nil]
    rw [foldl_addHistoryL_small l (by omega)]
    unfold addHistoryL
    dsimp only
    rw [if_pos (by simp [hl])]
    refine ⟨?_, ?_, ?_⟩
    · simp [hl]
    · rw [List.getLast?_concat]
      rw [List.dropLast_cons_of_ne_nil (by simpa using hlne)]
      rfl
    · rw [List.dropLast_cons_of_ne_nil (by simpa using hlne)]
      rw [List.dropLast_reverse]
      rw [List.drop_append_of_le_length (by omega)]
      simp

/-- Witness for C7 at the initial state and 51 numbered entries. -/
theorem c7_witness :
    (((List.range 51).map
        (fun i => (⟨natDigits i, "0", "t"⟩ : HistoryEntry))).foldl
      (fun h en => addHistoryL en h) []).length = 50 :=
  (c7_history_cap initState .init _ (by simp)).2.1

/-! ## Claim C8 -/

theorem digitChar_isDigit {m : ℕ} (h : m < 10) : (Nat.digitChar m).isDigit = true := by
  interval_cases m <;> decide

theorem natDigitsAux_chars :
    ∀ (f n : ℕ) (acc : List Char), (∀ c ∈ acc, c.isDigit = true) →
      ∀ c ∈ natDigitsAux f n acc, c.isDigit = true := by
  intro f
  induction f with
  | zero => intro n acc hacc; exact hacc
  | succ f ih =>
    intro n acc hacc c hc
    cases n with
    | zero => exact hacc c hc
    | succ n =>
      refine ih _ _ ?_ c hc
      intro d hd
      rcases List.mem_cons.1 hd with rfl | hd
      · exact digitChar_isDigit (Nat.mod_lt _ (by decide))
      · exact hacc d hd

theorem natDigits_chars (n : ℕ) : ∀ c ∈ natDigits n, c.isDigit = true := by
  unfold natDigits
  split_ifs
  · intro c hc
    simp only [List.mem_singleton] at hc
    subst hc
    decide
  · exact natDigitsAux_chars _ _ _ (by intro c hc; cases hc)

theorem groupRevAux_mem :
    ∀ (f : ℕ) (l : List Char) (c : Char), c ∈ groupRevAux f l → c ∈ l ∨ c = ',' := by
  intro f
  induction f with
  | zero => intro l c hc; exact Or.inl hc
  | succ f ih =>
    intro l c hc
    rw [groupRevAux] at hc
    split_ifs at hc
    · exact Or.inl hc
    · rcases List.mem_append.1 hc with hc | hc
      · exact Or.inl (List.mem_of_mem_take hc)
      · rcases List.mem_cons.1 hc with rfl | hc
        · exact Or.inr rfl
        · rcases ih _ c hc with hc | hc
          · exact Or.inl (List.mem_of_mem_drop hc)
          · exact Or.inr hc

theorem groupDigits_mem (ds : List Char) (c : Char) (hc : c ∈ groupDigits ds) :
    c ∈ ds ∨ c = ',' := by
  unfold groupDigits at hc
  rw [List.mem_reverse] at hc
  rcases groupRevAux_mem _ _ c hc with hc | hc
  · exact Or.inl (List.mem_reverse.1 hc)
  · exact Or.inr hc

theorem groupRevAux_filter :
    ∀ (f : ℕ) (l : List Char), (',' ∉ l) →
      (groupRevAux f l).filter (fun c => c ≠ ',') = l := by
  intro f
  induction f with
  | zero =>
    intro l hl
    exact List.filter_eq_self.2 fun c hc => by
      simp only [ne_eq, decide_eq_true_eq]
      intro h
      subst h
      exact hl hc
  | succ f ih =>
    intro l hl
    rw [groupRevAux]
    split_ifs
    · exact List.filter_eq_self.2 fun c hc => by
        simp only [ne_eq, decide_eq_true_eq]
        intro h
        subst h
        exact hl hc
    · rw [List.filter_append]
      rw [List.filter_eq_self.2 (fun c hc => by
        simp only [ne_eq, decide_eq_true_eq]
        intro h
        subst h
        exact hl (List.mem_of_mem_take hc))]
      rw [show (',' :: groupRevAux f (l.drop 3)).filter (fun c => c ≠ ',') =
          (groupRevAux f (l.drop 3)).filter (fun c => c ≠ ',') from by
        simp [List.filter_cons]]
      rw [ih _ (fun hc => hl (List.mem_of_mem_drop hc))]
      exact List.take_append_drop 3 l

theorem groupDigits_filter (ds : List Char) (hds : ',' ∉ ds) :
    (groupDigits ds).filter (fun c => c ≠ ',') = ds := by
  unfold groupDigits
  rw [List.filter_reverse, groupRevAux_filter _ _ (by simpa using hds),
    List.reverse_reverse]

/-- Claim C8: for every integer of magnitude below 1e15, formatResult
takes the integer branch, its output contains no decimal point and is
the signed digit string with locale grouping commas inserted (removing
the commas recovers the plain signed digits); in particular 2+2
evaluates to exactly 4 and formatResult renders 4 as the string 4. -/
theorem c8_integer_format (n : ℤ) (hn : |n| < 10 ^ 15) :
    formatResult ((n : ℚ)) = localeIntStr n ∧
    '.' ∉ (localeIntStr n).data ∧
    (localeIntStr n).data.filter (fun c => c ≠ ',') =
      (if n < 0 then ['-'] else []) ++ natDigits n.natAbs ∧
    evaluateExpression (("2+2").data) = .ok (.fin 4) ∧
    formatResult 4 = "4" := by
  have hdig : ∀ c ∈ natDigits n.natAbs, c.isDigit = true := natDigits_chars _
  have hcomma : ',' ∉ natDigits n.natAbs := fun hc =>
    ne_of_isDigit (hdig _ hc) (by decide) rfl
  refine ⟨?_, ?_, ?_, by with_unfolding_all rfl, by with_unfolding_all rfl⟩
  · unfold formatResult
    rw [if_pos ⟨Rat.den_intCast n, by exact_mod_cast hn⟩]
    rw [Rat.num_intCast]
  · intro hc
    unfold localeIntStr localeIntChars at hc
    simp only [String.data] at hc
    rcases List.mem_append.1 hc with hc | hc
    · split_ifs at hc <;> simp_all
    · rcases groupDigits_mem _ _ hc with hc | hc
      · exact ne_of_isDigit (hdig _ hc) (by decide) rfl
      · cases hc
  · unfold localeIntStr localeIntChars
    simp only [String.data]
    rw [List.filter_append, groupDigits_filter _ hcomma]
    congr 1
    split_ifs <;> rfl

/-- Witness for C8 at the integer 1234567. -/
theorem c8_witness :
    formatResult (((1234567 : ℤ) : ℚ)) = localeIntStr 1234567 ∧
    localeIntStr 1234567 = "1,234,567" :=
  ⟨(c8_integer_format 1234567 (by decide)).1, by with_unfolding_all rfl⟩

/-! ## Claim C9 -/

theorem locale2Chars_shape (q : ℚ) :
    ∃ pre d1 d2, locale2Chars q = pre ++ ['.', d1, d2] ∧ d1.isDigit = true ∧
      d2.isDigit = true ∧ '.' ∉ pre := by
  refine ⟨(if q < 0 then ['-'] else []) ++
      groupDigits (natDigits ((roundHalfAway (|q| * 100)).toNat / 100)),
    Nat.digitChar ((roundHalfAway (|q| * 100)).toNat % 100 / 10),
    Nat.digitChar ((roundHalfAway (|q| * 100)).toNat % 10), ?_, ?_, ?_, ?_⟩
  · unfold locale2Chars
    simp [List.append_assoc]
  · refine digitChar_isDigit ?_
    have := Nat.mod_lt ((roundHalfAway (|q| * 100)).toNat) (show 0 < 100 by decide)
    omega
  · exact digitChar_isDigit (Nat.mod_lt _ (by decide))
  · intro hc
    rcases List.mem_append.1 hc with hc | hc
    · split_ifs at hc <;> simp_all
    · rcases groupDigits_mem _ _ hc with hc | hc
      · exact ne_of_isDigit (natDigits_chars _ _ hc) (by decide) rfl
      · cases hc

/-- Claim C9: for every pair, direction and input that parses as a
finite decimal number, the converter multiplies by the rate in the
forward direction and divides when swapped, and displays the
destination symbol, a space, and the result formatted with grouping
and exactly two fractional digits (the display ends in a dot and two
digit characters, with no other dot); in particular pair usd-ngn with
input 10 forward displays the Naira symbol with 15,800.00. -/
theorem c9_convert (p : PairId) (sw : Bool) (s : String) (a : ℚ)
    (hp : jsParseFloat s.data = some a) :
    (convertCurrency { input := s, pair := p, swapped := sw }).1 =
      (if sw then (RATES p).symbol else (RATES p).toSymbol) ++ " " ++
        locale2 (if sw then a / (RATES p).rate else a * (RATES p).rate) ∧
    (∃ pre d1 d2,
      (locale2 (if sw then a / (RATES p).rate else a * (RATES p).rate)).data =
        pre ++ ['.', d1, d2] ∧ d1.isDigit = true ∧ d2.isDigit = true ∧
        '.' ∉ pre) ∧
    (convertCurrency { input := "10", pair := .usdNgn, swapped := false }).1 =
      "₦ 15,800.00" := by
  refine ⟨?_, locale2Chars_shape _, by with_unfolding_all rfl⟩
  unfold convertCurrency
  rw [hp]

/-- Witness for C9 at pair usd-ngn, input 10, forward direction. -/
theorem c9_witness :
    (convertCurrency { input := "10", pair := .usdNgn, swapped := false }).1 =
      (if false then (RATES PairId.usdNgn).symbol
        else (RATES PairId.usdNgn).toSymbol) ++ " " ++
        locale2 (if false then 10 / (RATES PairId.usdNgn).rate
          else 10 * (RATES PairId.usdNgn).rate) :=
  (c9_convert PairId.usdNgn false "10" 10 (by with_unfolding_all rfl)).1

/-! ## Claim C6: no two consecutive operators -/

theorem noTwoOps_nil : NoTwoOps [] := List.chain'_nil

theorem headOpFree_nil : headOpFree [] := by
  intro c hc
  cases hc

theorem exprInv_nil : ExprInv [] := ⟨noTwoOps_nil, headOpFree_nil⟩

theorem noTwoOps_of_no_ops {l : List Char} (h : ∀ c ∈ l, isOpChar c = false) :
    NoTwoOps l := by
  induction l with
  | nil => exact List.chain'_nil
  | cons a t ih =>
    rw [NoTwoOps, List.chain'_cons']
    refine ⟨?_, ih fun c hc => h c (by simp [hc])⟩
    intro b hb hab
    have hbmem : b ∈ t := by
      cases t with
      | nil => cases hb
      | cons x xs =>
        simp only [List.head?_cons, Option.mem_def, Option.some.injEq] at hb
        subst hb
        simp
    rw [h b (by simp [hbmem])] at hab
    exact absurd hab.2 (by simp)

theorem noTwoOps_append {l₁ l₂ : List Char} (h1 : NoTwoOps l₁) (h2 : NoTwoOps l₂)
    (hb : ∀ x ∈ l₁.getLast?, ∀ y ∈ l₂.head?, ¬(isOpChar x = true ∧ isOpChar y = true)) :
    NoTwoOps (l₁ ++ l₂) :=
  List.chain'_append.2 ⟨h1, h2, hb⟩

theorem noTwoOps_concat {l : List Char} {c : Char} (h : NoTwoOps l)
    (hc : lastCharIsOp l = false ∨ isOpChar c = false) :
    NoTwoOps (l ++ [c]) := by
  refine noTwoOps_append h (by simp [NoTwoOps]) ?_
  intro x hx y hy hxy
  simp only [List.head?_cons, Option.mem_def, Option.some.injEq] at hy
  subst hy
  rcases hc with hc | hc
  · rw [lastCharIsOp] at hc
    rw [Option.mem_def] at hx
    rw [hx] at hc
    dsimp only at hc
    rw [hc] at hxy
    exact absurd hxy.1 (by simp)
  · rw [hc] at hxy
    exact absurd hxy.2 (by simp)

theorem chain'_of_prefix {R : Char → Char → Prop} {l l' : List Char}
    (h : List.Chain' R l) (hp : l' <+: l) : List.Chain' R l' := by
  obtain ⟨t, rfl⟩ := hp
  exact (List.chain'_append.1 h).1

theorem noTwoOps_take {l : List Char} (h : NoTwoOps l) (k : ℕ) :
    NoTwoOps (l.take k) :=
  chain'_of_prefix h (List.take_prefix k l)

theorem noTwoOps_dropLast {l : List Char} (h : NoTwoOps l) :
    NoTwoOps l.dropLast := by
  rw [List.dropLast_eq_take]
  exact noTwoOps_take h _

theorem noTwoOps_tail {l : List Char} (h : NoTwoOps l) : NoTwoOps l.tail := by
  cases l with
  | nil => exact List.chain'_nil
  | cons a t => exact (List.chain'_cons'.1 h).2

theorem headOpFree_take {l : List Char} (h : headOpFree l) (k : ℕ) :
    headOpFree (l.take k) := by
  intro c hc
  refine h c ?_
  cases l with
  | nil => simp at hc
  | cons a t =>
    cases k with
    | zero => simp at hc
    | succ k =>
      simp only [List.take_succ_cons, List.head?_cons, Option.mem_def,
        Option.some.injEq] at hc ⊢
      exact hc

theorem headOpFree_dropLast {l : List Char} (h : headOpFree l) :
    headOpFree l.dropLast := by
  rw [List.dropLast_eq_take]
  exact headOpFree_take h _

theorem headOpFree_append_left {l₁ l₂ : List Char} (h : headOpFree l₁)
    (hne : l₁ ≠ []) : headOpFree (l₁ ++ l₂) := by
  cases l₁ with
  | nil => exact absurd rfl hne
  | cons a t =>
    intro c hc
    simp only [List.cons_append, List.head?_cons, Option.mem_def,
      Option.some.injEq] at hc
    subst hc
    exact h a (by simp)

theorem noTwoOps_dropLast_last {l : List Char} (h : NoTwoOps l)
    (hop : lastCharIsOp l = true) : lastCharIsOp l.dropLast = false := by
  rcases List.eq_nil_or_concat l with rfl | ⟨l', a, rfl⟩
  · simp [lastCharIsOp] at hop
  · rw [List.concat_eq_append] at h hop ⊢
    rw [List.dropLast_concat]
    rw [lastCharIsOp, List.getLast?_concat] at hop
    have hb := (List.chain'_append.1 h).2.2
    rw [lastCharIsOp]
    cases hl : l'.getLast? with
    | none => rfl
    | some b =>
      cases hbop : isOpChar b
      · exact hbop
      · exfalso
        dsimp only at hop
        exact (hb b (by simp [hl]) a (by simp)) ⟨hbop, hop⟩

theorem isOpChar_false_of_isDigit {c : Char} (h : c.isDigit = true) :
    isOpChar c = false := by
  cases hop : isOpChar c
  · rfl
  · exfalso
    simp only [isOpChar, Bool.or_eq_true, decide_eq_true_eq] at hop
    rcases hop with ((rfl | rfl) | rfl) | rfl <;> simp at h

theorem fracDigitsAux_chars :
    ∀ (f num den : ℕ), 0 < den → num < den →
      ∀ c ∈ fracDigitsAux f num den, c.isDigit = true := by
  intro f
  induction f with
  | zero => intro num den _ _ c hc; cases hc
  | succ f ih =>
    intro num den hden hlt c hc
    cases num with
    | zero => cases hc
    | succ m =>
      rw [show fracDigitsAux (f + 1) (m + 1) den =
        Nat.digitChar ((m + 1) * 10 / den) ::
          fracDigitsAux f ((m + 1) * 10 % den) den from rfl] at hc
      rcases List.mem_cons.1 hc with rfl | hc
      · refine digitChar_isDigit ?_
        rw [Nat.div_lt_iff_lt_mul hden]
        omega
      · exact ih _ _ hden (Nat.mod_lt _ hden) c hc

theorem decChars_chars (q : ℚ) :
    ∀ c ∈ decChars q, c.isDigit = true ∨ c = '.' := by
  intro c hc
  unfold decChars at hc
  rcases List.mem_append.1 hc with hc | hc
  · exact Or.inl (natDigits_chars _ c hc)
  · split_ifs at hc
    · cases hc
    · rcases List.mem_cons.1 hc with rfl | hc
      · exact Or.inr rfl
      · refine Or.inl (fracDigitsAux_chars _ _ _ q.den_pos ?_ c hc)
        exact Nat.mod_lt _ q.den_pos

theorem natDigitsAux_append (f : ℕ) :
    ∀ (n : ℕ) (acc : List Char), ∃ pre, natDigitsAux f n acc = pre ++ acc := by
  induction f with
  | zero => exact fun n acc => ⟨[], rfl⟩
  | succ f ih =>
    intro n acc
    cases n with
    | zero => exact ⟨[], rfl⟩
    | succ m =>
      obtain ⟨pre, hpre⟩ := ih ((m + 1) / 10) (Nat.digitChar ((m + 1) % 10) :: acc)
      refine ⟨pre ++ [Nat.digitChar ((m + 1) % 10)], ?_⟩
      rw [show natDigitsAux (f + 1) (m + 1) acc =
        natDigitsAux f ((m + 1) / 10) (Nat.digitChar ((m + 1) % 10) :: acc) from rfl]
      rw [hpre]
      simp

theorem natDigits_ne_nil (n : ℕ) : natDigits n ≠ [] := by
  unfold natDigits
  split_ifs with h
  · simp
  · cases n with
    | zero => exact absurd rfl h
    | succ m =>
      rw [show natDigitsAux (m + 1 + 1) (m + 1) [] =
        natDigitsAux (m + 1) ((m + 1) / 10) [Nat.digitChar ((m + 1) % 10)] from rfl]
      obtain ⟨pre, hpre⟩ :=
        natDigitsAux_append (m + 1) ((m + 1) / 10) [Nat.digitChar ((m + 1) % 10)]
      rw [hpre]
      simp

theorem decChars_ne_nil (q : ℚ) : decChars q ≠ [] := by
  unfold decChars
  intro h
  rcases List.append_eq_nil.1 h with ⟨h1, _⟩
  exact natDigits_ne_nil _ h1

theorem mem_of_getLast?_eq {l : List Char} {c : Char} (h : l.getLast? = some c) :
    c ∈ l := by
  obtain ⟨hne, rfl⟩ := List.mem_getLast?_eq_getLast (show c ∈ l.getLast? from by
    rw [Option.mem_def]; exact h)
  exact List.getLast_mem hne

theorem lastCharIsOp_eq_false_of_mem {l : List Char}
    (h : ∀ c ∈ l, isOpChar c = false) : lastCharIsOp l = false := by
  rw [lastCharIsOp]
  cases hl : l.getLast? with
  | none => rfl
  | some c =>
    dsimp only
    exact h c (mem_of_getLast?_eq hl)

theorem decChars_no_ops (q : ℚ) : ∀ c ∈ decChars q, isOpChar c = false := by
  intro c hc
  rcases decChars_chars q c hc with hc | rfl
  · exact isOpChar_false_of_isDigit hc
  · decide

theorem jsNumToString_ne_nil (v : JsNum) : (jsNumToString v).data ≠ [] := by
  cases v with
  | fin q =>
    show (if q < 0 then ['-'] else []) ++ decChars |q| ≠ []
    intro h
    exact decChars_ne_nil _ (List.append_eq_nil.1 h).2
  | inf => decide
  | negInf => decide
  | nan => decide

theorem jsNumToString_last_not_op (v : JsNum) :
    lastCharIsOp ((jsNumToString v).data) = false := by
  cases v with
  | fin q =>
    show lastCharIsOp ((if q < 0 then ['-'] else []) ++ decChars |q|) = false
    rw [lastCharIsOp, List.getLast?_append_of_ne_nil _ (decChars_ne_nil _)]
    cases hl : (decChars |q|).getLast? with
    | none => rfl
    | some c =>
      dsimp only
      exact decChars_no_ops _ c (mem_of_getLast?_eq hl)
  | inf => decide
  | negInf => decide
  | nan => decide

theorem jsNumToString_noTwoOps (v : JsNum) :
    NoTwoOps ((jsNumToString v).data) := by
  cases v with
  | fin q =>
    show NoTwoOps ((if q < 0 then ['-'] else []) ++ decChars |q|)
    split_ifs
    · rw [List.singleton_append, NoTwoOps, List.chain'_cons']
      refine ⟨?_, noTwoOps_of_no_ops (decChars_no_ops _)⟩
      intro y hy hcon
      have hymem : y ∈ decChars |q| := by
        cases hd : decChars |q| with
        | nil => rw [hd] at hy; cases hy
        | cons a t =>
          rw [hd] at hy
          simp only [List.head?_cons, Option.mem_def, Option.some.injEq] at hy
          subst hy
          simp [hd]
      rw [decChars_no_ops _ y hymem] at hcon
      exact absurd hcon.2 (by simp)
    · rw [List.nil_append]
      exact noTwoOps_of_no_ops (decChars_no_ops _)
  | inf => exact noTwoOps_of_no_ops (by decide)
  | negInf =>
    show NoTwoOps ('-' :: ("Infinity").data)
    rw [NoTwoOps, List.chain'_cons']
    exact ⟨by decide, noTwoOps_of_no_ops (by decide)⟩
  | nan => exact noTwoOps_of_no_ops (by decide)

theorem headOpFree_of_head {l : List Char} {a : Char}
    (h : l.head? = some a) (ha : ¬(a = '+' ∨ a = '*' ∨ a = '/')) : headOpFree l := by
  intro c hc
  rw [Option.mem_def, h, Option.some.injEq] at hc
  subst hc
  exact ha

theorem jsNumToString_headOpFree (v : JsNum) :
    headOpFree ((jsNumToString v).data) := by
  cases v with
  | fin q =>
    show headOpFree ((if q < 0 then ['-'] else []) ++ decChars |q|)
    split_ifs
    · intro c hc
      simp only [List.singleton_append, List.head?_cons, Option.mem_def,
        Option.some.injEq] at hc
      subst hc
      decide
    · rw [List.nil_append]
      intro c hc
      have hcm : c ∈ decChars |q| := by
        cases hd : decChars |q| with
        | nil => rw [hd] at hc; cases hc
        | cons a t =>
          rw [hd] at hc
          simp only [List.head?_cons, Option.mem_def, Option.some.injEq] at hc
          subst hc
          simp [hd]
      rcases decChars_chars _ c hcm with hdg | rfl
      · intro hor
        rcases hor with rfl | rfl | rfl <;> simp at hdg
      · decide
  | inf => exact headOpFree_of_head rfl (by decide)
  | negInf => exact headOpFree_of_head rfl (by decide)
  | nan => exact headOpFree_of_head rfl (by decide)

theorem exprInv_singleton {c : Char} (hc : isOpChar c = false ∨ c = '-') :
    ExprInv [c] := by
  refine ⟨by simp [NoTwoOps], ?_⟩
  intro d hd
  simp only [List.head?_cons, Option.mem_def, Option.some.injEq] at hd
  subst hd
  rcases hc with hc | rfl
  · intro hor
    rcases hor with rfl | rfl | rfl <;> simp [isOpChar] at hc
  · decide

theorem exprInv_concat_not_op {l : List Char} {c : Char} (h : ExprInv l)
    (hc : isOpChar c = false) : ExprInv (l ++ [c]) := by
  rcases h with ⟨h1, h2⟩
  refine ⟨noTwoOps_concat h1 (Or.inr hc), ?_⟩
  cases hl : l with
  | nil => simpa using (exprInv_singleton (Or.inl hc)).2
  | cons a t =>
    rw [← hl]
    exact headOpFree_append_left h2 (by rw [hl]; simp)

theorem exprInv_append_no_ops {l m : List Char} (h : ExprInv l)
    (hm : ∀ c ∈ m, isOpChar c = false) (hm0 : headOpFree m) :
    ExprInv (l ++ m) := by
  rcases h with ⟨h1, h2⟩
  refine ⟨?_, ?_⟩
  · refine noTwoOps_append h1 (noTwoOps_of_no_ops hm) ?_
    intro x _ y hy hxy
    rw [hm y (by
      cases m with
      | nil => cases hy
      | cons a t =>
        simp only [List.head?_cons, Option.mem_def, Option.some.injEq] at hy
        subst hy
        simp)] at hxy
    exact absurd hxy.2 (by simp)
  · cases hl : l with
    | nil => simpa using hm0
    | cons a t =>
      rw [← hl]
      exact headOpFree_append_left h2 (by rw [hl]; simp)

theorem exprInv_jsNumToString (v : JsNum) : ExprInv ((jsNumToString v).data) :=
  ⟨jsNumToString_noTwoOps v, jsNumToString_headOpFree v⟩

theorem inputNum_exprInv {c : Char} (hc : c.isDigit = true ∨ c = '.')
    (s : CalcState) (h : ExprInv s.expression) :
    ExprInv (inputNum c s).expression := by
  have hcop : isOpChar c = false := by
    rcases hc with hc | rfl
    · exact isOpChar_false_of_isDigit hc
    · decide
  have hcpm : c ≠ '±' := by
    rcases hc with hc | rfl
    · exact ne_of_isDigit hc (by decide)
    · decide
  unfold inputNum
  rw [if_neg hcpm]
  split_ifs with hdot hreset
  · exact h
  · rw [liveEvaluate_expression]
    show ExprInv ([] ++ [c])
    rw [List.nil_append]
    exact exprInv_singleton (Or.inl hcop)
  · rw [liveEvaluate_expression]
    exact exprInv_concat_not_op h hcop

theorem toggleSign_exprInv (s : CalcState) (h : ExprInv s.expression) :
    ExprInv (toggleSign s).expression := by
  unfold toggleSign
  rw [liveEvaluate_expression]
  split_ifs with h1 h2 h3
  · exact exprInv_jsNumToString _
  · -- strip the leading minus
    rcases h with ⟨hn, _⟩
    cases hl : s.expression with
    | nil => exact exprInv_nil
    | cons a t =>
      rw [hl] at h2 hn
      simp only [List.head?_cons, Option.some.injEq] at h2
      subst h2
      show ExprInv t
      refine ⟨(List.chain'_cons'.1 hn).2, ?_⟩
      intro d hd
      have hpair := (List.chain'_cons'.1 hn).1 d hd
      intro hor
      refine hpair ⟨by decide, ?_⟩
      rcases hor with rfl | rfl | rfl <;> decide
  · -- prepend a minus
    rcases h with ⟨hn, hh⟩
    refine ⟨?_, ?_⟩
    · rw [NoTwoOps, List.chain'_cons']
      refine ⟨?_, hn⟩
      intro d hd hcon
      have hne : d ≠ '-' := by
        intro hdm
        subst hdm
        cases hl : s.expression with
        | nil => rw [hl] at hd; cases hd
        | cons a t =>
          rw [hl] at hd h2
          simp only [List.head?_cons, Option.mem_def, Option.some.injEq] at hd
          subst hd
          simp at h2
      have := hh d hd
      simp only [isOpChar, Bool.or_eq_true, decide_eq_true_eq] at hcon
      rcases hcon.2 with ((hx | hx) | hx) | hx
      · exact this (Or.inl hx)
      · exact hne hx
      · exact this (Or.inr (Or.inl hx))
      · exact this (Or.inr (Or.inr hx))
    · intro d hd
      simp only [List.head?_cons, Option.mem_def, Option.some.injEq] at hd
      subst hd
      decide
  · exact h

theorem inputOp_exprInv {op : Char} (hop : isOpChar op = true) (s : CalcState)
    (h : ExprInv s.expression) : ExprInv (inputOp op s).expression := by
  unfold inputOp
  dsimp only
  have hseed : ∀ e : List Char, ExprInv e → lastCharIsOp e = false →
      ExprInv ((if e = [] ∧ op ≠ '-' then ({ s with expression := e } : CalcState)
        else { s with expression := e ++ [op], lastAnswer := none }).expression) := by
    intro e he hlast
    split_ifs with hcond
    · exact he
    · show ExprInv (e ++ [op])
      rcases he with ⟨h1, h2⟩
      refine ⟨noTwoOps_concat h1 (Or.inl hlast), ?_⟩
      cases hl : e with
      | nil =>
        have hopm : op = '-' := by
          rcases Decidable.em (op = '-') with hx | hx
          · exact hx
          · exact absurd ⟨hl, hx⟩ hcond
        subst hopm
        simpa using (exprInv_singleton (Or.inr rfl)).2
      | cons a t =>
        rw [← hl]
        exact headOpFree_append_left h2 (by rw [hl]; simp)
  by_cases hs1 : s.expression = [] ∧ s.lastAnswer.isSome = true
  · rw [if_pos hs1]
    have h1 : ExprInv ((jsNumToString (s.lastAnswer.getD .nan)).data) :=
      exprInv_jsNumToString _
    by_cases hs2 : (jsNumToString (s.lastAnswer.getD .nan)).data ≠ [] ∧
        lastCharIsOp ((jsNumToString (s.lastAnswer.getD .nan)).data) = true
    · rw [if_pos hs2]
      exact hseed _ ⟨noTwoOps_dropLast h1.1, headOpFree_dropLast h1.2⟩
        (noTwoOps_dropLast_last h1.1 hs2.2)
    · rw [if_neg hs2]
      refine hseed _ h1 ?_
      rcases Decidable.em ((jsNumToString (s.lastAnswer.getD .nan)).data = []) with hx | hx
      · rw [hx]; rfl
      · rcases Decidable.em (lastCharIsOp ((jsNumToString (s.lastAnswer.getD .nan)).data)
            = true) with hy | hy
        · exact absurd ⟨hx, hy⟩ hs2
        · simpa using hy
  · rw [if_neg hs1]
    by_cases hs2 : s.expression ≠ [] ∧ lastCharIsOp s.expression = true
    · rw [if_pos hs2]
      exact hseed _ ⟨noTwoOps_dropLast h.1, headOpFree_dropLast h.2⟩
        (noTwoOps_dropLast_last h.1 hs2.2)
    · rw [if_neg hs2]
      refine hseed _ h ?_
      rcases Decidable.em (s.expression = []) with hx | hx
      · rw [hx]; rfl
      · rcases Decidable.em (lastCharIsOp s.expression = true) with hy | hy
        · exact absurd ⟨hx, hy⟩ hs2
        · simpa using hy

theorem inputParenthesis_exprInv (s : CalcState) (h : ExprInv s.expression) :
    ExprInv (inputParenthesis s).expression := by
  unfold inputParenthesis
  rw [liveEvaluate_expression]
  split_ifs with h1 h2
  · show ExprInv (s.expression ++ ['('])
    rcases h with ⟨hn, hh⟩
    refine ⟨noTwoOps_concat hn (Or.inr (by decide)), ?_⟩
    cases hl : s.expression with
    | nil => simpa using (exprInv_singleton (Or.inl (by decide))).2
    | cons a t =>
      rw [← hl]
      exact headOpFree_append_left hh (by rw [hl]; simp)
  · exact exprInv_concat_not_op h (by decide)
  · show ExprInv (s.expression ++ ['*', '('])
    have hne : s.expression ≠ [] := by
      intro hx
      exact h1 (Or.inl hx)
    have hlast : lastCharIsOp s.expression = false := by
      rcases Decidable.em (lastCharIsOp s.expression = true) with hy | hy
      · exact absurd (Or.inr (Or.inr hy)) h1
      · simpa using hy
    rcases h with ⟨hn, hh⟩
    refine ⟨?_, headOpFree_append_left hh hne⟩
    refine noTwoOps_append hn ?_ ?_
    · rw [NoTwoOps, List.chain'_pair]
      decide
    · intro x hx y hy hxy
      simp only [List.head?_cons, Option.mem_def, Option.some.injEq] at hy
      subst hy
      rw [lastCharIsOp, hx] at hlast
      dsimp only at hlast
      rw [hlast] at hxy
      exact absurd hxy.1 (by simp)

theorem backspace_exprInv (s : CalcState) (h : ExprInv s.expression) :
    ExprInv (backspace s).expression := by
  unfold backspace
  split_ifs
  · exact h
  · rw [liveEvaluate_expression]
    show ExprInv (backspaceExpr s.expression)
    unfold backspaceExpr
    cases funcTailLen s.expression with
    | none => exact ⟨noTwoOps_dropLast h.1, headOpFree_dropLast h.2⟩
    | some k => exact ⟨noTwoOps_take h.1 _, headOpFree_take h.2 _⟩

theorem sciFuncExpr_exprInv (fn : SciFn) (e : List Char) (h : ExprInv e) :
    ExprInv (sciFuncExpr fn e) := by
  have happ : ∀ m : List Char, (∀ c ∈ m, isOpChar c = false) → m ≠ [] →
      headOpFree m → ExprInv (e ++ m) := fun m hm hmne hm0 =>
    exprInv_append_no_ops h hm hm0
  cases fn with
  | sin =>
    exact happ (("sin(").data) (by decide) (by decide)
      (headOpFree_of_head rfl (by decide))
  | cos =>
    exact happ (("cos(").data) (by decide) (by decide)
      (headOpFree_of_head rfl (by decide))
  | tan =>
    exact happ (("tan(").data) (by decide) (by decide)
      (headOpFree_of_head rfl (by decide))
  | log =>
    exact happ (("log(").data) (by decide) (by decide)
      (headOpFree_of_head rfl (by decide))
  | ln =>
    exact happ (("ln(").data) (by decide) (by decide)
      (headOpFree_of_head rfl (by decide))
  | sqrt =>
    exact happ (("sqrt(").data) (by decide) (by decide)
      (headOpFree_of_head rfl (by decide))
  | abs =>
    exact happ (("abs(").data) (by decide) (by decide)
      (headOpFree_of_head rfl (by decide))
  | pow =>
    show ExprInv (if e ≠ [] then '(' :: e ++ (")^2").data else e)
    split_ifs with hne
    · rcases h with ⟨hn, hh⟩
      have hinner : NoTwoOps (e ++ (")^2").data) :=
        (exprInv_append_no_ops ⟨hn, hh⟩ (by decide)
          (show headOpFree ((")^2").data) from
            headOpFree_of_head rfl (by decide))).1
      refine ⟨?_, ?_⟩
      · show NoTwoOps ('(' :: (e ++ (")^2").data))
        rw [NoTwoOps, List.chain'_cons']
        refine ⟨?_, hinner⟩
        intro y _ hy
        exact absurd hy.1 (by decide)
      · show headOpFree ('(' :: (e ++ (")^2").data))
        exact headOpFree_of_head rfl (by decide)
    · exact h
  | pi =>
    show ExprInv (if e ≠ [] ∧ ¬ lastCharIsOp e = true ∧ e.getLast? ≠ some '(' then
      e ++ ['*', 'π'] else e ++ ['π'])
    split_ifs with hc
    · rcases h with ⟨hn, hh⟩
      refine ⟨?_, headOpFree_append_left hh hc.1⟩
      refine noTwoOps_append hn (by rw [NoTwoOps, List.chain'_pair]; decide) ?_
      intro x hx y hy hxy
      simp only [List.head?_cons, Option.mem_def, Option.some.injEq] at hy
      subst hy
      have : lastCharIsOp e = true := by
        rw [lastCharIsOp, hx]
        exact hxy.1
      exact hc.2.1 this
    · exact exprInv_concat_not_op h (by decide)
  | euler =>
    show ExprInv (if e ≠ [] ∧ ¬ lastCharIsOp e = true ∧ e.getLast? ≠ some '(' then
      e ++ ['*', 'e'] else e ++ ['e'])
    split_ifs with hc
    · rcases h with ⟨hn, hh⟩
      refine ⟨?_, headOpFree_append_left hh hc.1⟩
      refine noTwoOps_append hn (by rw [NoTwoOps, List.chain'_pair]; decide) ?_
      intro x hx y hy hxy
      simp only [List.head?_cons, Option.mem_def, Option.some.injEq] at hy
      subst hy
      have : lastCharIsOp e = true := by
        rw [lastCharIsOp, hx]
        exact hxy.1
      exact hc.2.1 this
    · exact exprInv_concat_not_op h (by decide)
  | factorial =>
    show ExprInv (if e ≠ [] then e ++ ['!'] else e)
    split_ifs
    · exact exprInv_concat_not_op h (by decide)
    · exact h
  | inv =>
    show ExprInv (if e ≠ [] then ("1/(").data ++ e ++ [')'] else e)
    split_ifs with hne
    · have hinner : ExprInv (e ++ [')']) := exprInv_concat_not_op h (by decide)
      refine ⟨?_, ?_⟩
      · rw [show (("1/(").data ++ e ++ [')'] : List Char) =
          ("1/(").data ++ (e ++ [')']) by simp]
        refine noTwoOps_append (by
          rw [NoTwoOps]
          rw [show ("1/(").data = ['1', '/', '('] from rfl]
          rw [List.chain'_cons']
          refine ⟨by intro y hy; simp at hy; subst hy; decide, ?_⟩
          rw [List.chain'_pair]
          decide) hinner.1 ?_
        intro x hx y _ hxy
        rw [show (("1/(").data : List Char).getLast? = some '(' from rfl,
          Option.mem_def, Option.some.injEq] at hx
        subst hx
        exact absurd hxy.1 (by decide)
      · rw [show (("1/(").data ++ e ++ [')'] : List Char) =
          '1' :: (("/(").data ++ e ++ [')']) by simp]
        exact headOpFree_of_head rfl (by decide)
    · exact h

theorem sciFunc_exprInv (fn : SciFn) (s : CalcState) (h : ExprInv s.expression) :
    ExprInv (sciFunc fn s).expression := by
  unfold sciFunc
  rw [liveEvaluate_expression]
  split_ifs with hs
  · exact sciFuncExpr_exprInv fn _ (exprInv_jsNumToString _)
  · exact sciFuncExpr_exprInv fn _ h

theorem calculate_exprInv (t : String) (s : CalcState) (h : ExprInv s.expression) :
    ExprInv (calculate t s).expression := by
  unfold calculate
  split_ifs
  · exact h
  · split
    · exact exprInv_nil
    · exact exprInv_nil
    · exact exprInv_nil
    · exact exprInv_nil
    · exact exprInv_nil

/-- Claim C6: in every state reachable from the initial state by the
expression-builder operations (digit or dot input, operator input,
smart parenthesis, backspace, sign toggle, scientific functions,
clear, commit), the expression never contains two consecutive binary
operator characters: adjacent characters are never both operators, and
no two-operator pair occurs as a contiguous substring. -/
theorem c6_no_consecutive_operators (s : CalcState)
    (hr : ReachableVia builderAct s) :
    NoTwoOps s.expression ∧
    ∀ a b : Char, isOpChar a = true → isOpChar b = true →
      ¬ [a, b] <:+: s.expression := by
  have hinv : ExprInv s.expression := by
    induction hr with
    | init => exact exprInv_nil
    | step a s ha _ ih =>
      cases a with
      | num c => exact inputNum_exprInv ha s ih
      | op c => exact inputOp_exprInv ha s ih
      | paren => exact inputParenthesis_exprInv s ih
      | back => exact backspace_exprInv s ih
      | sign => exact toggleSign_exprInv s ih
      | fn f => exact sciFunc_exprInv f s ih
      | clear => exact exprInv_nil
      | commit t => exact calculate_exprInv t s ih
      | histRecall i => exact absurd ha (by simp [builderAct])
      | hclear => exact absurd ha (by simp [builderAct])
  refine ⟨hinv.1, ?_⟩
  intro a b ha hb hinf
  obtain ⟨u, v, huv⟩ := hinf
  have hn := hinv.1
  rw [← huv] at hn
  have h2 := (List.chain'_append.1 (by
    rwa [List.append_assoc] at hn)).2.1
  have h3 := (List.chain'_cons'.1 (by
    rwa [show ([a, b] ++ v : List Char) = a :: (b :: v) by simp] at h2)).1
  exact h3 b (by simp) ⟨ha, hb⟩

/-- Witness for C6 at the reachable state obtained by pressing 2 and
then the + key. -/
theorem c6_witness :
    NoTwoOps (stepAct (Act.op '+') (stepAct (Act.num '2') initState)).expression :=
  (c6_no_consecutive_operators _
    (.step (Act.op '+') _ rfl (.step (Act.num '2') _ (Or.inl rfl) .init))).1

/-! ## Claim C10 -/

/-- Claim C10, as stated over all calculator operations, is false: the
smart parenthesis key neither clears the expression nor consumes the
pending lastAnswer. Pressing 2, equals, then the parenthesis key
reaches a state whose lastAnswer is still 2 while the expression is
the single opening parenthesis. -/
theorem c10_counterexample :
    ReachableVia calcAct
      (stepAct .paren (stepAct (.commit "t") (stepAct (.num '2') initState))) ∧
    (stepAct .paren (stepAct (.commit "t")
      (stepAct (.num '2') initState))).lastAnswer ≠ none ∧
    (stepAct .paren (stepAct (.commit "t")
      (stepAct (.num '2') initState))).expression ≠ [] := by
  refine ⟨.step .paren _ trivial (.step (.commit "t") _ trivial
    (.step (Act.num '2') _ (Or.inl rfl) .init)), ?_, ?_⟩
  · with_unfolding_all decide
  · with_unfolding_all decide

theorem toggleSign_LAinv (s : CalcState) (h : LAinv s) : LAinv (toggleSign s) := by
  unfold toggleSign LAinv
  rw [liveEvaluate_expression, liveEvaluate_lastAnswer]
  split_ifs with h1 h2 h3
  · intro hla
    exact absurd rfl hla
  · intro hla
    rw [h hla] at h2
    cases h2
  · intro hla
    exact absurd (h hla) h3
  · intro hla
    exact h hla

theorem inputNum_LAinv (c : Char) (s : CalcState) (h : LAinv s) :
    LAinv (inputNum c s) := by
  unfold inputNum
  split_ifs with h1 h2 h3
  · exact toggleSign_LAinv s h
  · exact h
  · unfold LAinv
    rw [liveEvaluate_expression, liveEvaluate_lastAnswer]
    intro hla
    simp at hla
  · unfold LAinv
    rw [liveEvaluate_expression, liveEvaluate_lastAnswer]
    intro hla
    exfalso
    refine h3 ⟨?_, ?_⟩
    · cases hv : s.lastAnswer with
      | none => exact absurd hv hla
      | some v => simp [hv]
    · rw [h hla]
      simp [lastCharIsOp]

theorem inputOp_LAinv (op : Char) (s : CalcState) (_h : LAinv s) :
    LAinv (inputOp op s) := by
  unfold inputOp
  dsimp only
  split_ifs <;> unfold LAinv <;> intro hla <;>
    first
      | exact absurd rfl hla
      | simp_all

theorem backspace_LAinv (s : CalcState) (h : LAinv s) : LAinv (backspace s) := by
  unfold backspace
  split_ifs with h1
  · exact h
  · unfold LAinv
    rw [liveEvaluate_expression, liveEvaluate_lastAnswer]
    intro hla
    exact absurd (h hla) h1

theorem sciFunc_LAinv (fn : SciFn) (s : CalcState) (h : LAinv s) :
    LAinv (sciFunc fn s) := by
  unfold sciFunc
  dsimp only
  split_ifs with h1
  · unfold LAinv
    rw [liveEvaluate_expression, liveEvaluate_lastAnswer]
    intro hla
    exact absurd rfl hla
  · unfold LAinv
    rw [liveEvaluate_expression, liveEvaluate_lastAnswer]
    intro hla
    exfalso
    refine h1 ⟨?_, h hla⟩
    cases hv : s.lastAnswer with
    | none => exact absurd hv hla
    | some v => simp [hv]

theorem clearAll_LAinv (s : CalcState) : LAinv (clearAll s) := by
  intro hla
  exact absurd rfl hla

theorem calculate_LAinv (t : String) (s : CalcState) (h : LAinv s) :
    LAinv (calculate t s) := by
  unfold calculate
  split_ifs with h1
  · exact h
  · unfold LAinv
    split <;> intro hla <;> rfl

theorem recallHistory_LAinv (i : ℕ) (s : CalcState) (h : LAinv s) :
    LAinv (recallHistory i s) := by
  unfold recallHistory
  split
  · exact h
  · dsimp only
    split <;> intro hla <;> rfl

theorem clearHistory_LAinv (s : CalcState) (h : LAinv s) :
    LAinv (clearHistory s) :=
  fun hla => h hla

/-- Claim C10 amended: after every event other than the smart
parenthesis key, a pending lastAnswer implies the expression is empty,
so the next builder keystroke starts from it rather than extending the
committed expression; the parenthesis key itself breaks the property
(see the counterexample). -/
theorem c10_amended (s : CalcState) (hr : ReachableVia noParenAct s) :
    s.lastAnswer ≠ none → s.expression = [] := by
  induction hr with
  | init => intro hla; exact absurd rfl hla
  | step a s ha _ ih =>
    cases a with
    | num c => exact inputNum_LAinv c s ih
    | op c => exact inputOp_LAinv c s ih
    | paren => exact ha.elim
    | back => exact backspace_LAinv s ih
    | sign => exact toggleSign_LAinv s ih
    | fn f => exact sciFunc_LAinv f s ih
    | clear => exact clearAll_LAinv s
    | commit t => exact calculate_LAinv t s ih
    | histRecall i => exact recallHistory_LAinv i s ih
    | hclear => exact clearHistory_LAinv s ih

/-- Witness for the amended C10: the state reached by pressing 2 then
equals is reachable without the parenthesis key, its lastAnswer is
pending, and the theorem yields the empty expression there. -/
theorem c10_witness :
    ReachableVia noParenAct
      (stepAct (.commit "t") (stepAct (Act.num '2') initState)) ∧
    (stepAct (.commit "t") (stepAct (Act.num '2') initState)).expression = [] :=
  ⟨.step (.commit "t") _ trivial (.step (Act.num '2') _ (Or.inl rfl) .init),
   c10_amended _
     (.step (.commit "t") _ trivial (.step (Act.num '2') _ (Or.inl rfl) .init))
     (by with_unfolding_all decide)⟩
